import Mathlib

/-!
Verification development for a Rust disk-usage analyser (treemap GUI).
The definitions below are a shallow embedding of `src/main.rs`:
pure data (the `Node` tree, the treemap layout geometry) is embedded as
Lean functions, the filesystem-touching operations (`scan_directory_parallel`,
`build_node`, `copy_or_move`) are embedded as explicit state passing over an
abstract filesystem tree, and the shared cancellation flag is embedded as a
monotone boolean function of an abstract poll clock.  Machine floats of the
treemap layout are embedded as exact rationals.
-/

set_option maxHeartbeats 1000000

namespace TS

/-- A filesystem path, as its list of components (Rust `PathBuf`). -/
abbrev FPath := List String

/-- Embeds `struct Node` (main.rs lines 30-38): name, absolute path,
is-directory flag, aggregated size in bytes, aggregated file count and the
ordered children.  An inductive is used because the Rust struct is recursive
through `Vec<Node>`. -/
inductive Node where
  | mk (name : String) (path : FPath) (is_dir : Bool) (size : Nat)
       (file_count : Nat) (children : List Node)

def Node.name : Node → String
  | .mk n _ _ _ _ _ => n

def Node.path : Node → FPath
  | .mk _ p _ _ _ _ => p

def Node.is_dir : Node → Bool
  | .mk _ _ d _ _ _ => d

def Node.size : Node → Nat
  | .mk _ _ _ s _ _ => s

def Node.file_count : Node → Nat
  | .mk _ _ _ _ f _ => f

def Node.children : Node → List Node
  | .mk _ _ _ _ _ c => c

/-- The `size` aggregation loop of `Node::new_dir` (main.rs lines 45-48). -/
def sumSizes (l : List Node) : Nat := (l.map Node.size).sum

/-- The `file_count` aggregation loop of `Node::new_dir` (main.rs lines 45-48). -/
def sumCounts (l : List Node) : Nat := (l.map Node.file_count).sum

/-- One step of the stable descending-by-size sort: `x` is placed in front of
the first element whose size is at most `x.size`, so equal sizes keep their
original relative order. -/
def insertDesc (x : Node) : List Node → List Node
  | [] => [x]
  | y :: ys => if y.size ≤ x.size then x :: y :: ys else y :: insertDesc x ys

/-- Embeds `children.sort_by(|a, b| b.size.cmp(&a.size))` (main.rs line 51).
Rust `sort_by` is a stable sort; the output of any stable sort under the
total preorder `compare by size, descending` is unique, so this stable
insertion sort computes exactly the list Rust produces. -/
def sortDesc : List Node → List Node
  | [] => []
  | x :: xs => insertDesc x (sortDesc xs)

/-- Embeds `Node::new_file` (main.rs lines 63-72): a leaf with
`file_count = 1` and no children. -/
def Node.new_file (name : String) (path : FPath) (size : Nat) : Node :=
  .mk name path false size 1 []

/-- Embeds `Node::new_dir` (main.rs lines 41-61): sums the children's sizes
and file counts, then stably sorts the children descending by size. -/
def Node.new_dir (name : String) (path : FPath) (children : List Node) : Node :=
  .mk name path true (sumSizes children) (sumCounts children) (sortDesc children)

/-! ## Scanner embedding

`scan_directory_parallel` and `build_node` (main.rs lines 1210-1327) walk the
real filesystem; here the filesystem below the root is embedded as an
inductive `Entry` tree recording exactly the observations the Rust code
makes: whether an entry is a file (and whether its metadata call succeeds,
yielding a size), a directory (and whether its `read_dir` succeeds, yielding
its child entries in enumeration order), or an unsupported entry type.

The shared `AtomicBool` cancellation flag is embedded as a function
`cancel : Nat → Bool` of an abstract poll clock: each `cancel.load` in the
source reads the flag at the current clock value and advances the clock by
one.  The rayon `par_iter` fans siblings out over a pool and merges their
results in input order; the embedding serialises the sibling work in that
same order, which preserves the produced tree and the set of poll points. -/

/-- A directory entry as observed by `build_node`: `file` carries the result
of `path.metadata().map(|m| m.len())` (`none` when the metadata call fails),
`dir` carries whether `read_dir` succeeds plus the entries it yields, and
`other` is an entry that is neither a file nor a directory. -/
inductive Entry where
  | file (name : String) (meta : Option Nat)
  | dir (name : String) (readable : Bool) (entries : List Entry)
  | other (name : String)

/-- The two `Err(...)` strings of `build_node` (main.rs lines 1290, 1325),
as an enumeration. -/
inductive BuildError where
  | cancelled
  | unsupportedType
deriving DecidableEq

mutual

/-- Structural weight of an `Entry`, used as a termination measure. -/
def entryWeight : Entry → Nat
  | .file _ _ => 1
  | .dir _ _ es => 1 + entriesWeight es
  | .other _ => 1

/-- Structural weight of a list of entries, used as a termination measure. -/
def entriesWeight : List Entry → Nat
  | [] => 0
  | e :: rest => entryWeight e + 1 + entriesWeight rest

end

mutual

/-- Embeds `build_node` (main.rs lines 1288-1327).  The clock argument is the
current poll time; the function returns the produced result together with the
clock after all polls it performed. -/
def buildNode (cancel : Nat → Bool) (parent : FPath) (e : Entry) (t : Nat) :
    Except BuildError Node × Nat :=
  if cancel t then (.error .cancelled, t + 1)
  else
    match e with
    | .file name meta =>
        (.ok (Node.new_file name (parent ++ [name]) (meta.getD 0)), t + 1)
    | .dir name readable entries =>
        let es := if readable then entries else []
        let (children, t') := buildChildren cancel (parent ++ [name]) es (t + 1)
        (.ok (Node.new_dir name (parent ++ [name]) children), t')
    | .other _ => (.error .unsupportedType, t + 1)
termination_by entryWeight e
decreasing_by
  simp only [entryWeight, entriesWeight]
  split <;> simp [entriesWeight]

/-- Embeds the `par_iter().filter_map(...)` loop over the direct entries of a
directory (main.rs lines 1255-1263 and 1313-1321): each entry first polls the
cancellation flag and is skipped when it is set, otherwise `build_node` runs
and an `Err` result is dropped by `.ok()`. -/
def buildChildren (cancel : Nat → Bool) (parent : FPath) (es : List Entry)
    (t : Nat) : List Node × Nat :=
  match es with
  | [] => ([], t)
  | e :: rest =>
      if cancel t then buildChildren cancel parent rest (t + 1)
      else
        let (r, t') := buildNode cancel parent e (t + 1)
        let (ns, t'') := buildChildren cancel parent rest t'
        (match r with
         | .ok n => n :: ns
         | .error _ => ns, t'')
termination_by entriesWeight es
decreasing_by all_goals (simp only [entryWeight, entriesWeight]; omega)

end

/-- The observations `scan_directory_parallel` makes about the scan root:
the root path, the results of `root.exists()` and `root.is_dir()`, and the
result of `root.read_dir()` (an error message, or the direct entries in
enumeration order). -/
structure RootInfo where
  path : FPath
  ex : Bool
  is_dir : Bool
  read_dir : Except String (List Entry)

/-- The four terminal error messages of `scan_directory_parallel`
(main.rs lines 1215, 1223, 1231-1233, 1248-1250), as an enumeration:
`cancelled` is the cancellation message, `notFound` the missing-root message,
`notADirectory` the not-a-directory message, and `ioError e` the
unreadable-root message carrying the formatted OS error `e`. -/
inductive ScanError where
  | cancelled
  | notFound
  | notADirectory
  | ioError (msg : String)
deriving DecidableEq

/-- Embeds `struct ScanResult` (main.rs lines 75-80). -/
structure ScanResult where
  root_path : FPath
  root_node : Option Node
  error : Option ScanError

/-- The `root.file_name()...unwrap_or_else(...)` computation for the root
node name (main.rs lines 1273-1276): the last path component, or the whole
path rendered as a string when there is none. -/
def rootName (p : FPath) : String :=
  match p.getLast? with
  | some n => n
  | none => String.intercalate "/" p

/-- Embeds `scan_directory_parallel` (main.rs lines 1210-1285): cancellation
poll (clock 0), then root validation in source order, then the parallel child
build (clock 1 onwards), then the final cancellation poll. -/
def scan_directory_parallel (root : RootInfo) (cancel : Nat → Bool) :
    ScanResult :=
  if cancel 0 then ⟨root.path, none, some .cancelled⟩
  else if !root.ex then ⟨root.path, none, some .notFound⟩
  else if !root.is_dir then ⟨root.path, none, some .notADirectory⟩
  else
    match root.read_dir with
    | .error e => ⟨root.path, none, some (.ioError e)⟩
    | .ok entries =>
        let (children, t) := buildChildren cancel root.path entries 1
        if cancel t then ⟨root.path, none, some .cancelled⟩
        else ⟨root.path, some (Node.new_dir (rootName root.path) root.path children), none⟩

/-- The clock value at which `scan_directory_parallel` performs its final
cancellation poll (main.rs line 1265), for a root whose validation passes. -/
def finalCheckTime (root : RootInfo) (cancel : Nat → Bool) : Nat :=
  match root.read_dir with
  | .error _ => 0
  | .ok entries => (buildChildren cancel root.path entries 1).2

/-! ## Treemap layout embedding

`layout_treemap_rect` (main.rs lines 1064-1186) computes `f32` geometry and
paints; the painting calls have no effect on the produced `Hit` list and are
omitted, and the `f32` arithmetic is embedded as exact rational arithmetic
(every operation the function performs — add, multiply, divide, `min`,
comparisons — is the rounded form of the corresponding exact one). -/

/-- Embeds `egui::Rect` as used by the layout: min corner `(left, top)`,
max corner `(right, bottom)`. -/
structure TRect where
  left : ℚ
  top : ℚ
  right : ℚ
  bottom : ℚ
deriving DecidableEq

def TRect.width (r : TRect) : ℚ := r.right - r.left

def TRect.height (r : TRect) : ℚ := r.bottom - r.top

/-- `egui::Rect::shrink(d)`: move every edge inwards by `d`. -/
def TRect.shrink (r : TRect) (d : ℚ) : TRect :=
  ⟨r.left + d, r.top + d, r.right - d, r.bottom - d⟩

/-- `egui::Rect::contains(pos)`: inclusive on all four edges. -/
def TRect.containsB (r : TRect) (x y : ℚ) : Bool :=
  decide (r.left ≤ x) && decide (x ≤ r.right) &&
  decide (r.top ≤ y) && decide (y ≤ r.bottom)

/-- A point strictly inside a rectangle (used to state interior
disjointness). -/
def TRect.interior (r : TRect) (x y : ℚ) : Prop :=
  r.left < x ∧ x < r.right ∧ r.top < y ∧ y < r.bottom

def TRect.area (r : TRect) : ℚ := r.width * r.height

/-- Embeds `struct Hit` (main.rs lines 911-917). -/
structure Hit where
  rect : TRect
  path : FPath
  name : String
  size : Nat
  is_dir : Bool
deriving DecidableEq

/-- The slice allocation step for one child inside the layout loop
(main.rs lines 1091-1109): along the current orientation the child gets a
slice of length `fraction × length`, its far edge clamped with `min` to the
enclosing rectangle's far edge, while the running offset advances by the
unclamped length. -/
def sliceChild (rect : TRect) (horizontal : Bool) (offset fraction : ℚ) :
    TRect × ℚ :=
  if horizontal then
    let w := rect.width * fraction
    (⟨offset, rect.top, min (offset + w) rect.right, rect.bottom⟩, offset + w)
  else
    let h := rect.height * fraction
    (⟨rect.left, offset, rect.right, min (offset + h) rect.bottom⟩, offset + h)

mutual

/-- Structural weight of a `Node`, used as a termination measure. -/
def nodeWeight : Node → Nat
  | .mk _ _ _ _ _ cs => 1 + nodesWeight cs

/-- Structural weight of a list of nodes, used as a termination measure. -/
def nodesWeight : List Node → Nat
  | [] => 0
  | n :: rest => nodeWeight n + 1 + nodesWeight rest

end

mutual

/-- Embeds `layout_treemap_rect` (main.rs lines 1064-1186): the degenerate
guard at function entry, followed by the loop over the children. -/
def layoutTreemapRect (rect : TRect) (horizontal : Bool) (nodes : List Node)
    (total : ℚ) (depth : Nat) : List Hit :=
  if nodes.isEmpty || rect.width ≤ 2 || rect.height ≤ 2 then []
  else
    layoutLoop rect horizontal nodes total depth
      (if horizontal then rect.left else rect.top)
termination_by nodesWeight nodes * 2 + 1
decreasing_by omega

/-- The `for node in nodes` loop of `layout_treemap_rect`
(main.rs lines 1081-1185), with the running `offset` made explicit:
zero-size and zero-fraction children are skipped without advancing the
offset; a sliced child whose rectangle is thinner than 2 in either dimension
is dropped but the offset still advances; otherwise the child's `Hit` is
recorded, the recursion descends into its children (orthogonal orientation,
rectangle shrunk by 1, the child's own size total clamped to at least 1)
while the depth is below the cap 3, and the loop continues. -/
def layoutLoop (rect : TRect) (horizontal : Bool) (nodes : List Node)
    (total : ℚ) (depth : Nat) (offset : ℚ) : List Hit :=
  match nodes with
  | [] => []
  | node :: rest =>
      if node.size = 0 then layoutLoop rect horizontal rest total depth offset
      else
        let fraction : ℚ := (node.size : ℚ) / total
        if fraction ≤ 0 then layoutLoop rect horizontal rest total depth offset
        else
          let s := sliceChild rect horizontal offset fraction
          if s.1.width < 2 ∨ s.1.height < 2 then
            layoutLoop rect horizontal rest total depth s.2
          else
            let childHits :=
              if !node.children.isEmpty && depth < 3 then
                layoutTreemapRect (s.1.shrink 1) (!horizontal) node.children
                  (max (sumSizes node.children) 1 : Nat) (depth + 1)
              else []
            ⟨s.1, node.path, node.name, node.size, node.is_dir⟩ ::
              (childHits ++ layoutLoop rect horizontal rest total depth s.2)
termination_by nodesWeight nodes * 2
decreasing_by
  all_goals
    (simp only [show ∀ n : Node, nodeWeight n = 1 + nodesWeight n.children
        from fun n => by cases n; rfl, nodesWeight]
     omega)

end

/-- Embeds the hit-list construction of `draw_treemap`
(main.rs lines 929-959): the canvas rectangle is filled from the root's
children with the sum of their sizes (clamped to at least 1) as the total,
starting horizontally at depth 0. -/
def drawTreemapHits (root : Node) (canvas : TRect) : List Hit :=
  layoutTreemapRect canvas true root.children
    (max (sumSizes root.children) 1 : Nat) 0

/-- Embeds the click-selection loop of `draw_treemap`
(main.rs lines 961-970): the hits are scanned in generation order and the
FIRST rectangle containing the pointer wins (`break`). -/
def clickSelect (hits : List Hit) (x y : ℚ) : Option FPath :=
  (hits.find? fun h => h.rect.containsB x y).map Hit.path

/-- The slice geometry of one level of `layout_treemap_rect`
(main.rs lines 1081-1111), with the drawing and recursion stripped: the list
of (child, rectangle) pairs this level keeps, skipping zero-size and
zero-fraction children without advancing the offset and dropping rectangles
thinner than 2 in either dimension after advancing it, exactly as
`layoutLoop` does. -/
def rowAux (rect : TRect) (horizontal : Bool) (total : ℚ) :
    List Node → ℚ → List (Node × TRect)
  | [], _ => []
  | node :: rest, offset =>
      if node.size = 0 then rowAux rect horizontal total rest offset
      else
        let fraction : ℚ := (node.size : ℚ) / total
        if fraction ≤ 0 then rowAux rect horizontal total rest offset
        else
          let s := sliceChild rect horizontal offset fraction
          if s.1.width < 2 ∨ s.1.height < 2 then
            rowAux rect horizontal total rest s.2
          else
            (node, s.1) :: rowAux rect horizontal total rest s.2

/-- The sibling rectangles produced for one level: `rowAux` started at the
level's initial offset, as in `layoutTreemapRect`. -/
def rowRects (rect : TRect) (horizontal : Bool) (nodes : List Node)
    (total : ℚ) : List (Node × TRect) :=
  rowAux rect horizontal total nodes (if horizontal then rect.left else rect.top)

/-! ## Filesystem model and the file-mutation layer

`copy_or_move`, `delete_path` and `copy_dir_recursive`
(main.rs lines 1330-1427) act on the OS filesystem through `std::fs`.  The
filesystem is embedded as a rooted tree `FSTree` (the root is a directory;
directory entries are ordered name/subtree pairs, files carry their byte
size), and each `std::fs` primitive is embedded as an explicit
state-transforming function that returns `none` exactly when the OS call
fails in the corresponding way.  `fs::rename` may also fail for environment
reasons (typically cross-volume moves); that possibility is a parameter
`renameOk` of the embedding.  Path-length checking is platform-conditional
in the source, so it is a function parameter too. -/

/-- A filesystem subtree: a file with its size in bytes, or a directory with
its ordered entries. -/
inductive FSTree where
  | file (sz : Nat)
  | dir (entries : List (String × FSTree))

abbrev Entries := List (String × FSTree)

/-- First entry with the given name in a directory entry list. -/
def findEntry : Entries → String → Option FSTree
  | [], _ => none
  | (m, c) :: rest, n => if m = n then some c else findEntry rest n

/-- Replace the (first) entry with the given name, preserving order. -/
def setEntry : Entries → String → FSTree → Entries
  | [], _, _ => []
  | (m, c) :: rest, n, v =>
      if m = n then (m, v) :: rest else (m, c) :: setEntry rest n v

/-- Remove the (first) entry with the given name. -/
def removeEntry : Entries → String → Entries
  | [], _ => []
  | (m, c) :: rest, n =>
      if m = n then rest else (m, c) :: removeEntry rest n

/-- Resolve a path from a subtree: the node it denotes, if any. -/
def lookupFS (t : FSTree) : FPath → Option FSTree
  | [] => some t
  | n :: p =>
      match t with
      | .file _ => none
      | .dir es =>
          match findEntry es n with
          | some c => lookupFS c p
          | none => none

/-- `path.exists()` over the model. -/
def existsFS (fs : FSTree) (p : FPath) : Bool := (lookupFS fs p).isSome

/-- `path.is_dir()` over the model. -/
def isDirFS (fs : FSTree) (p : FPath) : Bool :=
  match lookupFS fs p with
  | some (.dir _) => true
  | _ => false

/-- Place a subtree at a path: replaces an existing node of that name, or
appends a new entry when the parent directory exists; fails (`none`) when an
intermediate component is missing or is a file. -/
def insertAt (t : FSTree) : FPath → FSTree → Option FSTree
  | [], v => some v
  | n :: p, v =>
      match t with
      | .file _ => none
      | .dir es =>
          match p, findEntry es n with
          | [], some _ => some (.dir (setEntry es n v))
          | [], none => some (.dir (es ++ [(n, v)]))
          | _ :: _, some c =>
              (insertAt c p v).map fun c' => .dir (setEntry es n c')
          | _ :: _, none => none

/-- Remove the node at a path (whole subtree); no-op when the path does not
resolve. -/
def removeAt (t : FSTree) : FPath → FSTree
  | [] => t
  | n :: p =>
      match t with
      | .file sz => .file sz
      | .dir es =>
          match p with
          | [] => .dir (removeEntry es n)
          | _ :: _ =>
              match findEntry es n with
              | some c => .dir (setEntry es n (removeAt c p))
              | none => .dir es

/-- The chain of fresh directories `fs::create_dir_all` builds below the
deepest existing component. -/
def mkDirChain : FPath → FSTree
  | [] => .dir []
  | n :: p => .dir [(n, mkDirChain p)]

/-- `fs::create_dir_all(p)`: creates every missing directory component;
fails (`none`) when a component resolves to a file. -/
def createDirAll (t : FSTree) : FPath → Option FSTree
  | [] =>
      match t with
      | .file _ => none
      | .dir es => some (.dir es)
  | n :: p =>
      match t with
      | .file _ => none
      | .dir es =>
          match findEntry es n with
          | some c => (createDirAll c p).map fun c' => .dir (setEntry es n c')
          | none => some (.dir (es ++ [(n, mkDirChain p)]))

/-- `fs::copy(src, dest)` with the source file's size already resolved:
overwrites an existing destination file, fails when the destination is an
existing directory or its parent is missing. -/
def fsCopyFile (fs : FSTree) (sz : Nat) (dest : FPath) : Option FSTree :=
  match lookupFS fs dest with
  | some (.dir _) => none
  | _ => insertAt fs dest (.file sz)

/-- Embeds `delete_path` (main.rs lines 1330-1337): resolve the metadata
(fails when the path is missing), then remove the directory recursively or
the single file. -/
def delete_path (fs : FSTree) (p : FPath) : Option FSTree :=
  match lookupFS fs p with
  | none => none
  | some _ => some (removeAt fs p)

mutual

/-- Embeds `copy_dir_recursive` (main.rs lines 1412-1427) over a snapshot of
the source subtree: `create_dir_all` on the destination, then each entry in
order — directories recurse, files are copied with `fs::copy`.  Returns the
success flag together with the state reached, so that a failure keeps the
partially copied state (the source performs no rollback). -/
def copyDirRec (t : FSTree) (fs : FSTree) (dest : FPath) : Bool × FSTree :=
  match t with
  | .file _ => (false, fs)
  | .dir entries =>
      match createDirAll fs dest with
      | none => (false, fs)
      | some fs₁ => copyEntries entries fs₁ dest

/-- The `for entry in fs::read_dir(src)?` loop of `copy_dir_recursive`:
stops at the first failing entry, keeping the state reached so far. -/
def copyEntries (es : Entries) (fs : FSTree) (dest : FPath) : Bool × FSTree :=
  match es with
  | [] => (true, fs)
  | (n, c) :: rest =>
      let step :=
        match c with
        | .dir _ => copyDirRec c fs (dest ++ [n])
        | .file sz =>
            match fsCopyFile fs sz (dest ++ [n]) with
            | none => (false, fs)
            | some fs' => (true, fs')
      match step with
      | (false, fs') => (false, fs')
      | (true, fs') => copyEntries rest fs' dest

end

/-- Two paths diverge: at some depth both still have components and they
differ, so neither is a prefix of the other and the subtrees they address
are disjoint. -/
def divergesB : FPath → FPath → Bool
  | [], _ => false
  | _ :: _, [] => false
  | a :: p, b :: q => if a = b then divergesB p q else true

mutual

/-- Structural weight of a filesystem subtree, used as a termination
measure. -/
def fsWeight : FSTree → Nat
  | .file _ => 1
  | .dir es => 1 + entsWeight es

/-- Structural weight of a directory entry list. -/
def entsWeight : Entries → Nat
  | [] => 0
  | (_, c) :: rest => fsWeight c + 1 + entsWeight rest

end

mutual

/-- The real-filesystem invariant of the model: within every directory the
entry names are distinct. -/
def wfFS : FSTree → Bool
  | .file _ => true
  | .dir es => wfEntries es

/-- Well-formedness of a directory entry list: the head name does not recur
and every subtree is well-formed. -/
def wfEntries : Entries → Bool
  | [] => true
  | (n, c) :: rest => (findEntry rest n).isNone && wfFS c && wfEntries rest

end

/-- The non-Windows `is_path_too_long` (main.rs lines 1345-1348): always
false.  (The Windows variant, lines 1339-1343, compares the rendered path
length against 260; no claim depends on it, so the length check enters
`copy_or_move` as a function parameter and this definition is the
non-Windows instantiation.) -/
def is_path_too_long_unix : FPath → Bool := fun _ => false

/-- The five `Err(...)` cases of `copy_or_move` (main.rs lines 1356-1408), as
an enumeration in source order: invalid destination, missing source, the
self-nested-move guard, path too long, and any propagated OS error. -/
inductive CmError where
  | invalidDestination (dest : FPath)
  | sourceNotFound (src : FPath)
  | selfNestedMove
  | pathTooLong (dest : FPath)
  | ioError
deriving DecidableEq

/-- Embeds `copy_or_move` (main.rs lines 1351-1409) as a state transformer:
validation in source order (destination exists and is a directory; source
exists; the `is_cut && dest_dir.starts_with(src)` guard), the destination
path `dest_dir/src.file_name()`, the length check, the rename attempt when
cutting (falling through to copy on failure), the recursive-or-single copy,
and the deletion of the original only when cutting and only after the copy
succeeded. -/
def copy_or_move (renameOk : Bool) (tooLong : FPath → Bool) (fs : FSTree)
    (src dest_dir : FPath) (is_cut : Bool) : Except CmError Unit × FSTree :=
  if !existsFS fs dest_dir || !isDirFS fs dest_dir then
    (.error (.invalidDestination dest_dir), fs)
  else if !existsFS fs src then (.error (.sourceNotFound src), fs)
  else if is_cut && src.isPrefixOf dest_dir then (.error .selfNestedMove, fs)
  else
    let file_name := match src.getLast? with
      | some n => n
      | none => "unnamed"
    let dest_path := dest_dir ++ [file_name]
    if tooLong dest_path then (.error (.pathTooLong dest_path), fs)
    else
      let renamed : Option FSTree :=
        if is_cut && renameOk then
          match lookupFS fs src with
          | some sub => insertAt (removeAt fs src) dest_path sub
          | none => none
        else none
      match renamed with
      | some fs' => (.ok (), fs')
      | none =>
          match lookupFS fs src with
          | none => (.error .ioError, fs)
          | some (.dir es) =>
              match copyDirRec (.dir es) fs dest_path with
              | (false, fs₁) => (.error .ioError, fs₁)
              | (true, fs₁) =>
                  if is_cut then
                    match delete_path fs₁ src with
                    | none => (.error .ioError, fs₁)
                    | some fs₂ => (.ok (), fs₂)
                  else (.ok (), fs₁)
          | some (.file sz) =>
              match fsCopyFile fs sz dest_path with
              | none => (.error .ioError, fs)
              | some fs₁ =>
                  if is_cut then
                    match delete_path fs₁ src with
                    | none => (.error .ioError, fs₁)
                    | some fs₂ => (.ok (), fs₂)
                  else (.ok (), fs₁)

/-- The recursive aggregation invariant of the spec: every directory node's
size and file count are the sums over its children, recursively, and every
file node is a leaf with file count 1. -/
inductive Agg : Node → Prop where
  | intro (name : String) (path : FPath) (d : Bool) (sz fc : Nat)
      (cs : List Node)
      (hdir : d = true → sz = sumSizes cs ∧ fc = sumCounts cs)
      (hfile : d = false → fc = 1 ∧ cs = [])
      (hch : ∀ c ∈ cs, Agg c) : Agg (.mk name path d sz fc cs)

/-! ## Concrete sample data (used by the witnesses below) -/

/-- A cancellation flag that is never set. -/
def cancelFalse : Nat → Bool := fun _ => false

/-- A cancellation flag that was set before any poll. -/
def cancelTrue : Nat → Bool := fun _ => true

/-- Direct entries of a sample scan root: a 10-byte file and a subdirectory
holding a 20-byte file. -/
def entriesW : List Entry :=
  [.file "a.txt" (some 10), .dir "sub" true [.file "b.txt" (some 20)]]

/-- A sample valid scan root. -/
def rootW : RootInfo := ⟨["root"], true, true, .ok entriesW⟩

/-- The tree a scan of `rootW` produces. -/
def c1NodeW : Node :=
  .mk "root" ["root"] true 30 2
    [.mk "sub" ["root", "sub"] true 20 1
       [.mk "b.txt" ["root", "sub", "b.txt"] false 20 1 []],
     .mk "a.txt" ["root", "a.txt"] false 10 1 []]

/-- Concrete tree for the hit-testing scenario: a root whose only child is a
directory `A` (64 bytes) holding a single 64-byte file `B`. -/
def c2Root : Node :=
  .mk "root" ["root"] true 64 1
    [.mk "A" ["root", "A"] true 64 1
       [.mk "B" ["root", "A", "B"] false 64 1 []]]

/-- Concrete treemap canvas for the hit-testing scenario. -/
def c2Canvas : TRect := ⟨0, 0, 100, 100⟩

/-- A sample root that does not exist. -/
def rootNF : RootInfo := ⟨["x"], false, true, .ok []⟩

/-- A sample root that exists but is not a directory. -/
def rootND : RootInfo := ⟨["x"], true, false, .ok []⟩

/-- A sample root directory whose `read_dir` fails. -/
def rootIO : RootInfo := ⟨["x"], true, true, .error "denied"⟩

/-- A sample filesystem: a root directory holding a directory `a` which
holds a directory `b`. -/
def fsW : FSTree := .dir [("a", .dir [("b", .dir [])])]

/-- Sample filesystem for the cut-fallback witness: a source directory `s`
holding a 7-byte file `f`, and an empty destination directory `d`. -/
def fsC6 : FSTree := .dir [("s", .dir [("f", .file 7)]), ("d", .dir [])]

/-- Sample filesystem on which the copy phase fails: the source `s` is a
file but the destination slot `d/s` is an existing directory, which
`fs::copy` refuses to overwrite. -/
def fsC6b : FSTree := .dir [("s", .file 5), ("d", .dir [("s", .dir [])])]

/-- Concrete sibling list for the treemap row witness: two files of sizes 3
and 1. -/
def c8Nodes : List Node :=
  [.mk "f" ["f"] false 3 1 [], .mk "g" ["g"] false 1 1 []]

/-- Concrete rectangle for the treemap row witness. -/
def c8R : TRect := ⟨0, 0, 100, 100⟩

/-! ## Theorems -/

/-- Membership in a stable descending insertion. -/
theorem mem_insertDesc {x y : Node} {l : List Node} :
    y ∈ insertDesc x l ↔ y = x ∨ y ∈ l := by
  induction l with
  | nil => simp [insertDesc]
  | cons z zs ih =>
      simp only [insertDesc]
      split
      · simp [or_comm, or_assoc, or_left_comm]
      · simp [ih, or_comm, or_assoc, or_left_comm]

/-- Stable descending insertion permutes the element onto the list. -/
theorem insertDesc_perm (x : Node) (l : List Node) :
    (insertDesc x l).Perm (x :: l) := by
  induction l with
  | nil => simp [insertDesc]
  | cons z zs ih =>
      simp only [insertDesc]
      split
      · exact List.Perm.refl _
      · exact (ih.cons z).trans (List.Perm.swap x z zs)

/-- The stable descending sort permutes its input. -/
theorem sortDesc_perm (l : List Node) : (sortDesc l).Perm l := by
  induction l with
  | nil => exact List.Perm.refl _
  | cons x xs ih => exact (insertDesc_perm x (sortDesc xs)).trans (ih.cons x)

/-- Inserting into a descending-sorted list keeps it descending-sorted. -/
theorem pairwise_insertDesc {x : Node} {l : List Node}
    (h : l.Pairwise fun a b => b.size ≤ a.size) :
    (insertDesc x l).Pairwise fun a b => b.size ≤ a.size := by
  induction l with
  | nil => simp [insertDesc]
  | cons z zs ih =>
      rcases List.pairwise_cons.mp h with ⟨hz, hzs⟩
      simp only [insertDesc]
      split
      · refine List.pairwise_cons.mpr ⟨?_, h⟩
        intro b hb
        rcases List.mem_cons.mp hb with rfl | hb
        · assumption
        · exact (hz b hb).trans (by assumption)
      · refine List.pairwise_cons.mpr ⟨?_, ih hzs⟩
        intro b hb
        rcases mem_insertDesc.mp hb with rfl | hb
        · exact le_of_not_le (by assumption)
        · exact hz b hb
/-- The stable descending sort is descending-sorted. -/
theorem sortDesc_sorted (l : List Node) :
    (sortDesc l).Pairwise fun a b => b.size ≤ a.size := by
  induction l with
  | nil => simp [sortDesc]
  | cons x xs ih => exact pairwise_insertDesc ih

/-- Filtering to one size value commutes with a stable insertion: the
inserted element lands in front of every retained element of that size. -/
theorem filter_insertDesc (x : Node) (l : List Node) (s : Nat) :
    (insertDesc x l).filter (fun c => c.size == s)
      = if x.size = s then x :: l.filter (fun c => c.size == s)
        else l.filter (fun c => c.size == s) := by
  induction l with
  | nil =>
      by_cases hx : x.size = s
      · simp [insertDesc, List.filter, hx]
      · have hx' : (x.size == s) = false := by simp [hx]
        simp [insertDesc, List.filter, hx, hx']
  | cons z zs ih =>
      simp only [insertDesc]
      split
      · by_cases hx : x.size = s
        · simp [List.filter, hx]
        · have hx' : (x.size == s) = false := by simp [hx]
          simp [List.filter, hx, hx']
      · have hzx : x.size < z.size := lt_of_not_le (by assumption)
        by_cases hx : x.size = s
        · have hz' : (z.size == s) = false := by
            simp only [beq_eq_false_iff_ne, ne_eq]
            omega
          have hx' : (x.size == s) = true := by simp [hx]
          simp [List.filter, hz', ih, hx, hx']
        · have hx' : (x.size == s) = false := by simp [hx]
          simp [List.filter, ih, hx, hx']

/-- The stable descending sort preserves, for each size value, the relative
order of the elements of that size. -/
theorem sortDesc_filter (l : List Node) (s : Nat) :
    (sortDesc l).filter (fun c => c.size == s)
      = l.filter (fun c => c.size == s) := by
  induction l with
  | nil => rfl
  | cons x xs ih =>
      simp only [sortDesc, filter_insertDesc, ih]
      by_cases hx : x.size = s
      · simp [List.filter, hx]
      · have hx' : (x.size == s) = false := by simp [hx]
        simp [List.filter, hx, hx']

/-- C4: for every directory `Node` produced by `new_dir`, the children list
is sorted in descending order of size, and for every size value the children
of that size appear in the same relative order as in the input list (the
stability of the tie-breaking). -/
theorem c4_new_dir_children_sorted_stable (name : String) (path : FPath)
    (cs : List Node) :
    ((Node.new_dir name path cs).children.Pairwise
        fun a b => b.size ≤ a.size) ∧
    ∀ s : Nat,
      (Node.new_dir name path cs).children.filter (fun c => c.size == s)
        = cs.filter (fun c => c.size == s) := by
  refine ⟨sortDesc_sorted cs, fun s => sortDesc_filter cs s⟩

/-- Permuting a node list preserves the size sum. -/
theorem sumSizes_perm {l₁ l₂ : List Node} (h : l₁.Perm l₂) :
    sumSizes l₁ = sumSizes l₂ :=
  List.Perm.sum_eq (h.map Node.size)

/-- Permuting a node list preserves the file-count sum. -/
theorem sumCounts_perm {l₁ l₂ : List Node} (h : l₁.Perm l₂) :
    sumCounts l₁ = sumCounts l₂ :=
  List.Perm.sum_eq (h.map Node.file_count)

/-- `new_file` always satisfies the aggregation invariant. -/
theorem agg_new_file (name : String) (path : FPath) (sz : Nat) :
    Agg (Node.new_file name path sz) :=
  Agg.intro name path false sz 1 []
    (fun h => nomatch h) (fun _ => ⟨rfl, rfl⟩) (by simp)

/-- `new_dir` satisfies the aggregation invariant whenever its children do:
the stored sums are over the input list and the stored children are its
stable sort, a permutation. -/
theorem agg_new_dir (name : String) (path : FPath) {cs : List Node}
    (h : ∀ c ∈ cs, Agg c) : Agg (Node.new_dir name path cs) :=
  Agg.intro name path true (sumSizes cs) (sumCounts cs) (sortDesc cs)
    (fun _ => ⟨(sumSizes_perm (sortDesc_perm cs)).symm,
               (sumCounts_perm (sortDesc_perm cs)).symm⟩)
    (fun hf => nomatch hf)
    (fun c hc => h c ((sortDesc_perm cs).subset hc))

/-- Every entry has positive structural weight. -/
theorem entryWeight_pos (e : Entry) : 1 ≤ entryWeight e := by
  cases e <;> simp [entryWeight, entriesWeight]

/-- Every node `build_node` successfully returns, and every node
`buildChildren` collects, satisfies the aggregation invariant (strong
induction on the structural weight). -/
theorem build_agg_aux (k : Nat) :
    (∀ e, entryWeight e ≤ k → ∀ cancel parent t n,
        (buildNode cancel parent e t).1 = .ok n → Agg n) ∧
    (∀ es, entriesWeight es ≤ k → ∀ cancel parent t,
        ∀ n ∈ (buildChildren cancel parent es t).1, Agg n) := by
  induction k with
  | zero =>
      constructor
      · intro e he
        have := entryWeight_pos e
        omega
      · intro es he cancel parent t n hn
        cases es with
        | nil => simp [buildChildren] at hn
        | cons e rest =>
            simp only [entriesWeight] at he
            have := entryWeight_pos e
            omega
  | succ k ih =>
      constructor
      · intro e he cancel parent t n hn
        match e with
        | .file name meta =>
            by_cases hc : cancel t
            · simp [buildNode, hc] at hn
            · simp [buildNode, hc] at hn
              exact hn ▸ agg_new_file name (parent ++ [name]) (meta.getD 0)
        | .dir name readable entries =>
            by_cases hc : cancel t
            · simp [buildNode, hc] at hn
            · rcases hbc : buildChildren cancel (parent ++ [name])
                  (if readable then entries else []) (t + 1) with ⟨children, t'⟩
              simp [buildNode, hc, hbc] at hn
              refine hn ▸ agg_new_dir name (parent ++ [name]) fun c hcm => ?_
              have hw : entriesWeight (if readable then entries else []) ≤ k := by
                simp only [entryWeight] at he
                have h0 : entriesWeight ([] : List Entry) = 0 := rfl
                split <;> omega
              exact ih.2 _ hw cancel (parent ++ [name]) (t + 1) c
                (by rw [hbc]; exact hcm)
        | .other name =>
            by_cases hc : cancel t <;> simp [buildNode, hc] at hn
      · intro es he cancel parent t n hn
        match es with
        | [] => simp [buildChildren] at hn
        | e :: rest =>
            have hew := entryWeight_pos e
            simp only [entriesWeight] at he
            by_cases hc : cancel t
            · simp [buildChildren, hc] at hn
              exact ih.2 rest (by omega) cancel parent (t + 1) n hn
            · rcases hb : buildNode cancel parent e (t + 1) with ⟨r, t'⟩
              rcases hbc2 : buildChildren cancel parent rest t' with ⟨ns, t''⟩
              simp [buildChildren, hc, hb, hbc2] at hn
              cases r with
              | ok m =>
                  simp at hn
                  rcases hn with rfl | hn
                  · exact ih.1 e (by omega) cancel parent (t + 1) n
                      (by rw [hb])
                  · exact ih.2 rest (by omega) cancel parent t' n
                      (by rw [hbc2]; exact hn)
              | error err =>
                  simp at hn
                  exact ih.2 rest (by omega) cancel parent t' n
                    (by rw [hbc2]; exact hn)

/-- C1: `new_file` always sets `file_count` to 1; `new_dir` is the
aggregation point, computing size and file count as the sums over its
children; and every root node a scan successfully produces satisfies the
aggregation invariant recursively down to the leaves. -/
theorem c1_aggregation :
    (∀ name path sz, (Node.new_file name path sz).file_count = 1) ∧
    (∀ name path cs,
        (Node.new_dir name path cs).size
            = sumSizes (Node.new_dir name path cs).children ∧
        (Node.new_dir name path cs).file_count
            = sumCounts (Node.new_dir name path cs).children) ∧
    (∀ root cancel node,
        (scan_directory_parallel root cancel).root_node = some node →
        Agg node) := by
  refine ⟨fun _ _ _ => rfl,
          fun name path cs => ⟨(sumSizes_perm (sortDesc_perm cs)).symm,
                               (sumCounts_perm (sortDesc_perm cs)).symm⟩,
          ?_⟩
  intro root cancel node h
  by_cases h0 : cancel 0
  · simp [scan_directory_parallel, h0] at h
  · by_cases hex : root.ex
    · by_cases hdir : root.is_dir
      · rcases hrd : root.read_dir with e | entries
        · simp [scan_directory_parallel, h0, hex, hdir, hrd] at h
        · rcases hbc : buildChildren cancel root.path entries 1
            with ⟨children, t⟩
          by_cases hct : cancel t
          · simp [scan_directory_parallel, h0, hex, hdir, hrd, hbc, hct] at h
          · simp [scan_directory_parallel, h0, hex, hdir, hrd, hbc, hct] at h
            refine h ▸ agg_new_dir _ _ fun c hcm => ?_
            exact (build_agg_aux (entriesWeight entries)).2 entries le_rfl
              cancel root.path 1 c (by rw [hbc]; exact hcm)
      · simp [scan_directory_parallel, h0, hex, hdir] at h
    · simp [scan_directory_parallel, h0, hex] at h

/-- Witness for C1: a concrete scan of `rootW` produces `c1NodeW`, which the
theorem then certifies against the aggregation invariant. -/
theorem c1_aggregation_witness : Agg c1NodeW :=
  c1_aggregation.2.2 rootW cancelFalse c1NodeW (by
    simp [scan_directory_parallel, rootW, cancelFalse, entriesW,
          buildChildren, buildNode, Node.new_dir, Node.new_file, sumSizes,
          sumCounts, sortDesc, insertDesc, rootName, c1NodeW, Node.size,
          Node.file_count, List.getLast?])

/-- C3: the cancellation flag is one-shot (monotone in the poll clock); if it
is set before the scan starts, or becomes set at any time up to the final
cancellation poll of the traversal, `scan_directory_parallel` returns a
result with no root node and the Cancelled error — never a partial tree. -/
theorem c3_cancellation_no_partial_tree (root : RootInfo)
    (cancel : Nat → Bool)
    (hmono : ∀ s s', s ≤ s' → cancel s = true → cancel s' = true)
    (hset : cancel 0 = true ∨
      (root.ex = true ∧ root.is_dir = true ∧
       ∃ s, s ≤ finalCheckTime root cancel ∧ cancel s = true)) :
    (scan_directory_parallel root cancel).root_node = none ∧
    (scan_directory_parallel root cancel).error = some .cancelled := by
  by_cases h0 : cancel 0
  · simp [scan_directory_parallel, h0]
  · rcases hset with hc0 | ⟨hex, hdir, s, hs, hcs⟩
    · exact absurd hc0 h0
    · rcases hrd : root.read_dir with e | entries
      · have hT : finalCheckTime root cancel = 0 := by
          simp [finalCheckTime, hrd]
        rw [hT, Nat.le_zero] at hs
        exact absurd (hs ▸ hcs) h0
      · rcases hbc : buildChildren cancel root.path entries 1
          with ⟨children, t⟩
        have hsT : s ≤ t := by
          have : finalCheckTime root cancel = t := by
            simp [finalCheckTime, hrd, hbc]
          omega
        have hct : cancel t = true := hmono s t hsT hcs
        simp [scan_directory_parallel, h0, hex, hdir, hrd, hbc, hct]

/-- Witness for C3: with the flag already set before the scan of the sample
root starts, the result carries no root node and the Cancelled error. -/
theorem c3_cancellation_no_partial_tree_witness :
    (scan_directory_parallel rootW cancelTrue).root_node = none ∧
    (scan_directory_parallel rootW cancelTrue).error = some .cancelled :=
  c3_cancellation_no_partial_tree rootW cancelTrue
    (fun _ _ _ h => h) (Or.inl rfl)

/-- C7: `scan_directory_parallel` checks its failure conditions in source
order — cancellation already requested, then a missing root, then a root
that is not a directory, then an unreadable root — each failure producing a
result with no root node and the corresponding error. -/
theorem c7_validation_order (root : RootInfo) (cancel : Nat → Bool) :
    (cancel 0 = true →
        scan_directory_parallel root cancel
          = ⟨root.path, none, some .cancelled⟩) ∧
    (cancel 0 = false → root.ex = false →
        scan_directory_parallel root cancel
          = ⟨root.path, none, some .notFound⟩) ∧
    (cancel 0 = false → root.ex = true → root.is_dir = false →
        scan_directory_parallel root cancel
          = ⟨root.path, none, some .notADirectory⟩) ∧
    (∀ e, cancel 0 = false → root.ex = true → root.is_dir = true →
        root.read_dir = .error e →
        scan_directory_parallel root cancel
          = ⟨root.path, none, some (.ioError e)⟩) := by
  refine ⟨fun h0 => by simp [scan_directory_parallel, h0],
          fun h0 hex => by simp [scan_directory_parallel, h0, hex],
          fun h0 hex hdir => by simp [scan_directory_parallel, h0, hex, hdir],
          fun e h0 hex hdir hrd => by
            simp [scan_directory_parallel, h0, hex, hdir, hrd]⟩

/-- Witness for C7: each of the four failure cases at a concrete root. -/
theorem c7_validation_order_witness :
    scan_directory_parallel rootW cancelTrue
      = ⟨["root"], none, some .cancelled⟩ ∧
    scan_directory_parallel rootNF cancelFalse
      = ⟨["x"], none, some .notFound⟩ ∧
    scan_directory_parallel rootND cancelFalse
      = ⟨["x"], none, some .notADirectory⟩ ∧
    scan_directory_parallel rootIO cancelFalse
      = ⟨["x"], none, some (.ioError "denied")⟩ :=
  ⟨(c7_validation_order rootW cancelTrue).1 rfl,
   (c7_validation_order rootNF cancelFalse).2.1 rfl rfl,
   (c7_validation_order rootND cancelFalse).2.2.1 rfl rfl rfl,
   (c7_validation_order rootIO cancelFalse).2.2.2 "denied" rfl rfl rfl rfl⟩

/-- C10 counterexample: `build_node` polls the cancellation flag first, so on
a path that exists and is a regular file it does return an error when the
flag is set — the claim as stated (never an error for a regular file) fails
at this input. -/
theorem c10_counterexample_cancelled_file_errors :
    (buildNode cancelTrue [] (.file "a" (some 5)) 0).1
      = .error .cancelled := by
  simp [buildNode, cancelTrue]

/-- C10 (amended): provided the cancellation flag is not set at the poll
`build_node` performs, `build_node` on a path that is a regular file never
returns an error: when the metadata (size) read fails it produces a node of
size 0 (still a leaf with file count 1) rather than skipping or failing. -/
theorem c10_file_metadata_failure_size_zero (cancel : Nat → Bool)
    (parent : FPath) (name : String) (meta : Option Nat) (t : Nat)
    (h : cancel t = false) :
    (buildNode cancel parent (.file name meta) t)
      = (.ok (Node.new_file name (parent ++ [name]) (meta.getD 0)), t + 1) ∧
    (meta = none →
      (buildNode cancel parent (.file name meta) t).1
        = .ok (Node.new_file name (parent ++ [name]) 0)) := by
  constructor
  · simp [buildNode, h]
  · rintro rfl
    simp [buildNode, h, Option.getD]

/-- Witness for C10: a concrete file whose metadata read fails builds as a
0-byte leaf node without error. -/
theorem c10_file_metadata_failure_size_zero_witness :
    (buildNode cancelFalse [] (.file "a" none) 0).1
      = .ok (Node.new_file "a" ["a"] 0) :=
  (c10_file_metadata_failure_size_zero cancelFalse [] "a" none 0 rfl).2 rfl

/-- C2 (code evaluation at the failing input): the generated hit list for
`c2Root` on `c2Canvas` records the parent rectangle (0,0)-(100,100) before
the nested leaf rectangle (1,1)-(99,99); the point (50,50) lies inside the
leaf rectangle, yet the click-selection loop — which takes the FIRST
containing hit in generation order — selects the parent `A`, not the
innermost leaf `B`. -/
theorem c2_hit_testing_selects_outermost :
    drawTreemapHits c2Root c2Canvas
      = [⟨⟨0, 0, 100, 100⟩, ["root", "A"], "A", 64, true⟩,
         ⟨⟨1, 1, 99, 99⟩, ["root", "A", "B"], "B", 64, false⟩] ∧
    clickSelect (drawTreemapHits c2Root c2Canvas) 50 50
      = some ["root", "A"] ∧
    (⟨1, 1, 99, 99⟩ : TRect).containsB 50 50 = true := by
  have hhits : drawTreemapHits c2Root c2Canvas
      = [⟨⟨0, 0, 100, 100⟩, ["root", "A"], "A", 64, true⟩,
         ⟨⟨1, 1, 99, 99⟩, ["root", "A", "B"], "B", 64, false⟩] := by
    norm_num [drawTreemapHits, c2Root, c2Canvas, layoutTreemapRect,
      layoutLoop, sliceChild, TRect.width, TRect.height, TRect.shrink,
      sumSizes, Node.children, Node.size, Node.path, Node.name,
      Node.is_dir]
  refine ⟨hhits, ?_, by norm_num [TRect.containsB]⟩
  rw [hhits]
  norm_num [clickSelect, List.find?, TRect.containsB]

/-- A path that resolves to a directory, in particular, exists. -/
theorem existsFS_of_isDirFS {fs : FSTree} {p : FPath}
    (h : isDirFS fs p = true) : existsFS fs p = true := by
  unfold isDirFS at h
  unfold existsFS
  rcases hl : lookupFS fs p with _ | t
  · rw [hl] at h
    simp at h
  · simp

/-- C5: when the destination is an existing directory and the source exists,
`copy_or_move` with `is_cut = true` and a destination equal to the source or
nested under it fails with the self-nested-move error before any filesystem
mutation — the returned state is the input state unchanged. -/
theorem c5_self_nested_move_guard (renameOk : Bool) (tooLong : FPath → Bool)
    (fs : FSTree) (src dest_dir : FPath)
    (hdest : isDirFS fs dest_dir = true)
    (hsrc : existsFS fs src = true)
    (hpre : src.isPrefixOf dest_dir = true) :
    copy_or_move renameOk tooLong fs src dest_dir true
      = (.error .selfNestedMove, fs) := by
  have hdex : existsFS fs dest_dir = true := existsFS_of_isDirFS hdest
  simp [copy_or_move, hdest, hdex, hsrc, hpre]

/-- Witness for C5: moving the directory `a` into itself is rejected with
the self-nested-move error and the filesystem is unchanged. -/
theorem c5_self_nested_move_guard_witness :
    copy_or_move false is_path_too_long_unix fsW ["a"] ["a"] true
      = (.error .selfNestedMove, fsW) :=
  c5_self_nested_move_guard false is_path_too_long_unix fsW ["a"] ["a"]
    (by rfl) (by rfl) (by rfl)

/-- C9: the self-nesting guard applies only when cutting: no run of
`copy_or_move` with `is_cut = false` can return the self-nested-move error;
for a destination directory equal to or nested under the source, the cut
variant is rejected by the guard while the non-cut variant passes validation
and proceeds to the copy stage (its outcome is the copy's success or a
propagated OS error, never a validation rejection). -/
theorem c9_self_nesting_guard_only_when_cut (renameOk : Bool)
    (tooLong : FPath → Bool) (fs : FSTree) (src dest_dir : FPath)
    (hdest : isDirFS fs dest_dir = true)
    (hsrc : existsFS fs src = true)
    (hpre : src.isPrefixOf dest_dir = true) :
    (∀ (renameOk₂ : Bool) (tooLong₂ : FPath → Bool) (fs₂ : FSTree)
        (src₂ dest₂ : FPath),
        (copy_or_move renameOk₂ tooLong₂ fs₂ src₂ dest₂ false).1
          ≠ .error .selfNestedMove) ∧
    (copy_or_move renameOk tooLong fs src dest_dir true).1
      = .error .selfNestedMove ∧
    (tooLong = is_path_too_long_unix →
      (copy_or_move renameOk tooLong fs src dest_dir false).1 = .ok ()
        ∨ (copy_or_move renameOk tooLong fs src dest_dir false).1
            = .error .ioError) := by
  have hdex : existsFS fs dest_dir = true := existsFS_of_isDirFS hdest
  refine ⟨?_, ?_, ?_⟩
  · intro renameOk₂ tooLong₂ fs₂ src₂ dest₂
    unfold copy_or_move
    simp only [Bool.false_and, Bool.and_false]
    repeat' split
    all_goals simp_all
  · simp [copy_or_move, hdest, hdex, hsrc, hpre]
  · rintro rfl
    unfold copy_or_move
    simp only [hdest, hdex, hsrc, Bool.not_true, Bool.or_self,
      Bool.false_and, Bool.and_false, is_path_too_long_unix,
      Bool.false_eq_true, if_false]
    rcases hl : lookupFS fs src with _ | t
    · simp [existsFS, hl] at hsrc
    · cases t with
      | dir es =>
          rcases hcd : copyDirRec (.dir es) fs
              (dest_dir ++ [match src.getLast? with
                            | some n => n
                            | none => "unnamed"]) with ⟨flag, fs₁⟩
          cases flag <;> simp [hl, hcd]
      | file sz =>
          rcases hcf : fsCopyFile fs sz
              (dest_dir ++ [match src.getLast? with
                            | some n => n
                            | none => "unnamed"]) with _ | fs₁
          · simp [hl, hcf]
          · simp [hl, hcf]

/-- Witness for C9: with `fsW`, the destination `a/b` is nested under the
source `a`; cutting is rejected with the self-nested-move error while
copying proceeds to the copy stage. -/
theorem c9_self_nesting_guard_only_when_cut_witness :
    (copy_or_move true is_path_too_long_unix fsW ["a"] ["a", "b"] true).1
      = .error .selfNestedMove ∧
    ((copy_or_move true is_path_too_long_unix fsW ["a"] ["a", "b"] false).1
        = .ok ()
      ∨ (copy_or_move true is_path_too_long_unix fsW ["a"] ["a", "b"]
          false).1 = .error .ioError) :=
  ⟨(c9_self_nesting_guard_only_when_cut true is_path_too_long_unix fsW
      ["a"] ["a", "b"] (by rfl) (by rfl) (by rfl)).2.1,
   (c9_self_nesting_guard_only_when_cut true is_path_too_long_unix fsW
      ["a"] ["a", "b"] (by rfl) (by rfl) (by rfl)).2.2 rfl⟩

/-- One-step unfolding of the layout row for a zero-size child: skipped
without advancing the offset. -/
theorem rowAux_cons_zero (R : TRect) (horizontal : Bool) (total : ℚ)
    (node : Node) (rest : List Node) (z : ℚ) (hsz : node.size = 0) :
    rowAux R horizontal total (node :: rest) z
      = rowAux R horizontal total rest z := by
  simp [rowAux, hsz]

/-- One-step unfolding of the horizontal layout row for a child with a
positive fraction. -/
theorem rowAux_cons_pos (R : TRect) (total : ℚ) (node : Node)
    (rest : List Node) (z : ℚ) (hsz : ¬node.size = 0)
    (hfrac : ¬((node.size : ℚ) / total ≤ 0)) :
    rowAux R true total (node :: rest) z
      = (if (⟨z, R.top, min (z + R.width * ((node.size : ℚ) / total)) R.right,
              R.bottom⟩ : TRect).width < 2 ∨
            (⟨z, R.top, min (z + R.width * ((node.size : ℚ) / total)) R.right,
              R.bottom⟩ : TRect).height < 2 then
          rowAux R true total rest (z + R.width * ((node.size : ℚ) / total))
        else
          (node, ⟨z, R.top,
                  min (z + R.width * ((node.size : ℚ) / total)) R.right,
                  R.bottom⟩) ::
            rowAux R true total rest
              (z + R.width * ((node.size : ℚ) / total))) := by
  simp [rowAux, hsz, hfrac, sliceChild]

/-- One-step unfolding of the vertical layout row for a child with a
positive fraction. -/
theorem rowAux_cons_pos_vert (R : TRect) (total : ℚ) (node : Node)
    (rest : List Node) (z : ℚ) (hsz : ¬node.size = 0)
    (hfrac : ¬((node.size : ℚ) / total ≤ 0)) :
    rowAux R false total (node :: rest) z
      = (if (⟨R.left, z, R.right,
              min (z + R.height * ((node.size : ℚ) / total)) R.bottom⟩ :
              TRect).width < 2 ∨
            (⟨R.left, z, R.right,
              min (z + R.height * ((node.size : ℚ) / total)) R.bottom⟩ :
              TRect).height < 2 then
          rowAux R false total rest (z + R.height * ((node.size : ℚ) / total))
        else
          (node, ⟨R.left, z, R.right,
                  min (z + R.height * ((node.size : ℚ) / total)) R.bottom⟩) ::
            rowAux R false total rest
              (z + R.height * ((node.size : ℚ) / total))) := by
  simp [rowAux, hsz, hfrac, sliceChild]

/-- The sum of the cast sizes of a node list splits on `cons`. -/
theorem sumSizes_cons_cast (node : Node) (rest : List Node) :
    ((sumSizes (node :: rest) : ℕ) : ℚ)
      = (node.size : ℚ) + ((sumSizes rest : ℕ) : ℚ) := by
  simp [sumSizes]

/-- Invariants of one horizontal layout row, by induction over the sibling
list with a generalized running offset `z`: every kept rectangle spans the
full vertical extent of `R`, starts at or after `z`, is nonempty and ends at
or before `R.right`; the kept rectangles are ordered left to right; and the
kept widths sum to the allocated span `R.width · (Σ sizes / total)` up to a
loss of less than 2 per child. -/
theorem rowAux_horiz_spec (R : TRect) (total : ℚ) (hpos : 0 < total)
    (hh : 2 < R.height) (hw0 : 0 ≤ R.width) :
    ∀ (l : List Node) (z : ℚ),
      z + R.width * ((sumSizes l : ℚ) / total) ≤ R.right →
      ((∀ p ∈ rowAux R true total l z,
          p.2.top = R.top ∧ p.2.bottom = R.bottom ∧ z ≤ p.2.left ∧
          p.2.left < p.2.right ∧ p.2.right ≤ R.right) ∧
       (rowAux R true total l z).Pairwise
          (fun a b => a.2.right ≤ b.2.left) ∧
       ((rowAux R true total l z).map fun p => p.2.width).sum
          ≤ R.width * ((sumSizes l : ℚ) / total) ∧
       R.width * ((sumSizes l : ℚ) / total) - 2 * l.length
          ≤ ((rowAux R true total l z).map fun p => p.2.width).sum) := by
  intro l
  induction l with
  | nil =>
      intro z hz
      refine ⟨by simp [rowAux], by simp [rowAux], ?_, ?_⟩
      · simp [rowAux, sumSizes]
      · simp [rowAux, sumSizes]
  | cons node rest ih =>
      intro z hz
      have hS := sumSizes_cons_cast node rest
      have hrest_nonneg : 0 ≤ R.width * ((sumSizes rest : ℚ) / total) :=
        mul_nonneg hw0 (div_nonneg (Nat.cast_nonneg _) (le_of_lt hpos))
      by_cases hsz : node.size = 0
      · have hS0 : ((sumSizes (node :: rest) : ℕ) : ℚ)
            = ((sumSizes rest : ℕ) : ℚ) := by rw [hS, hsz]; simp
        have hz' : z + R.width * ((sumSizes rest : ℚ) / total) ≤ R.right := by
          rw [hS0] at hz
          exact hz
        have hrec := ih z hz'
        rw [rowAux_cons_zero R true total node rest z hsz]
        refine ⟨hrec.1, hrec.2.1, ?_, ?_⟩
        · rw [hS0]
          exact hrec.2.2.1
        · rw [hS0]
          have := hrec.2.2.2
          simp only [List.length_cons]
          push_cast
          push_cast at this
          linarith
      · have hszq : (0 : ℚ) < (node.size : ℚ) := by
          exact_mod_cast Nat.pos_of_ne_zero hsz
        have hfrac : 0 < (node.size : ℚ) / total := div_pos hszq hpos
        have hfrac' : ¬((node.size : ℚ) / total ≤ 0) := not_le.mpr hfrac
        set W := R.width * ((node.size : ℚ) / total) with hWdef
        have hw_nonneg : 0 ≤ W := mul_nonneg hw0 (le_of_lt hfrac)
        have hsplit : W + R.width * ((sumSizes rest : ℚ) / total)
            = R.width * ((sumSizes (node :: rest) : ℚ) / total) := by
          rw [hWdef, hS]
          ring
        have hz' : (z + W) + R.width * ((sumSizes rest : ℚ) / total)
            ≤ R.right := by linarith
        have hmin : min (z + W) R.right = z + W := min_eq_left (by linarith)
        have hrec := ih (z + W) hz'
        rw [rowAux_cons_pos R total node rest z hsz hfrac', ← hWdef, hmin]
        have hrw : (⟨z, R.top, z + W, R.bottom⟩ : TRect).width = W := by
          simp [TRect.width]
        have hrh : (⟨z, R.top, z + W, R.bottom⟩ : TRect).height
            = R.height := rfl
        rw [hrw, hrh]
        by_cases hWlt : W < 2
        · rw [if_pos (Or.inl hWlt)]
          refine ⟨?_, hrec.2.1, ?_, ?_⟩
          · intro p hp
            have h1 := hrec.1 p hp
            exact ⟨h1.1, h1.2.1, by linarith [h1.2.2.1], h1.2.2.2.1,
                   h1.2.2.2.2⟩
          · have := hrec.2.2.1
            linarith
          · have := hrec.2.2.2
            simp only [List.length_cons]
            push_cast
            push_cast at this
            linarith
        · rw [if_neg (by
            push_neg
            exact ⟨not_lt.mp hWlt, by linarith⟩)]
          have hW2 : 2 ≤ W := not_lt.mp hWlt
          refine ⟨?_, ?_, ?_, ?_⟩
          · intro p hp
            rcases List.mem_cons.mp hp with rfl | hp
            · exact ⟨rfl, rfl, le_refl _, by
                show z < z + W
                linarith, by
                show z + W ≤ R.right
                linarith⟩
            · have h1 := hrec.1 p hp
              exact ⟨h1.1, h1.2.1, by linarith [h1.2.2.1], h1.2.2.2.1,
                     h1.2.2.2.2⟩
          · refine List.pairwise_cons.mpr ⟨?_, hrec.2.1⟩
            intro b hb
            have h1 := hrec.1 b hb
            exact h1.2.2.1
          · simp only [List.map_cons, List.sum_cons, hrw]
            have := hrec.2.2.1
            linarith
          · simp only [List.map_cons, List.sum_cons, hrw, List.length_cons]
            have := hrec.2.2.2
            push_cast
            push_cast at this
            linarith

/-- Invariants of one vertical layout row: the mirror image of
`rowAux_horiz_spec`, slicing along the vertical axis. -/
theorem rowAux_vert_spec (R : TRect) (total : ℚ) (hpos : 0 < total)
    (hw : 2 < R.width) (hh0 : 0 ≤ R.height) :
    ∀ (l : List Node) (z : ℚ),
      z + R.height * ((sumSizes l : ℚ) / total) ≤ R.bottom →
      ((∀ p ∈ rowAux R false total l z,
          p.2.left = R.left ∧ p.2.right = R.right ∧ z ≤ p.2.top ∧
          p.2.top < p.2.bottom ∧ p.2.bottom ≤ R.bottom) ∧
       (rowAux R false total l z).Pairwise
          (fun a b => a.2.bottom ≤ b.2.top) ∧
       ((rowAux R false total l z).map fun p => p.2.height).sum
          ≤ R.height * ((sumSizes l : ℚ) / total) ∧
       R.height * ((sumSizes l : ℚ) / total) - 2 * l.length
          ≤ ((rowAux R false total l z).map fun p => p.2.height).sum) := by
  intro l
  induction l with
  | nil =>
      intro z hz
      refine ⟨by simp [rowAux], by simp [rowAux], ?_, ?_⟩
      · simp [rowAux, sumSizes]
      · simp [rowAux, sumSizes]
  | cons node rest ih =>
      intro z hz
      have hS := sumSizes_cons_cast node rest
      have hrest_nonneg : 0 ≤ R.height * ((sumSizes rest : ℚ) / total) :=
        mul_nonneg hh0 (div_nonneg (Nat.cast_nonneg _) (le_of_lt hpos))
      by_cases hsz : node.size = 0
      · have hS0 : ((sumSizes (node :: rest) : ℕ) : ℚ)
            = ((sumSizes rest : ℕ) : ℚ) := by rw [hS, hsz]; simp
        have hz' : z + R.height * ((sumSizes rest : ℚ) / total)
            ≤ R.bottom := by
          rw [hS0] at hz
          exact hz
        have hrec := ih z hz'
        rw [rowAux_cons_zero R false total node rest z hsz]
        refine ⟨hrec.1, hrec.2.1, ?_, ?_⟩
        · rw [hS0]
          exact hrec.2.2.1
        · rw [hS0]
          have := hrec.2.2.2
          simp only [List.length_cons]
          push_cast
          push_cast at this
          linarith
      · have hszq : (0 : ℚ) < (node.size : ℚ) := by
          exact_mod_cast Nat.pos_of_ne_zero hsz
        have hfrac : 0 < (node.size : ℚ) / total := div_pos hszq hpos
        have hfrac' : ¬((node.size : ℚ) / total ≤ 0) := not_le.mpr hfrac
        set W := R.height * ((node.size : ℚ) / total) with hWdef
        have hw_nonneg : 0 ≤ W := mul_nonneg hh0 (le_of_lt hfrac)
        have hsplit : W + R.height * ((sumSizes rest : ℚ) / total)
            = R.height * ((sumSizes (node :: rest) : ℚ) / total) := by
          rw [hWdef, hS]
          ring
        have hz' : (z + W) + R.height * ((sumSizes rest : ℚ) / total)
            ≤ R.bottom := by linarith
        have hmin : min (z + W) R.bottom = z + W := min_eq_left (by linarith)
        have hrec := ih (z + W) hz'
        rw [rowAux_cons_pos_vert R total node rest z hsz hfrac', ← hWdef,
          hmin]
        have hrh : (⟨R.left, z, R.right, z + W⟩ : TRect).height = W := by
          simp [TRect.height]
        have hrw : (⟨R.left, z, R.right, z + W⟩ : TRect).width
            = R.width := rfl
        rw [hrw, hrh]
        by_cases hWlt : W < 2
        · rw [if_pos (Or.inr hWlt)]
          refine ⟨?_, hrec.2.1, ?_, ?_⟩
          · intro p hp
            have h1 := hrec.1 p hp
            exact ⟨h1.1, h1.2.1, by linarith [h1.2.2.1], h1.2.2.2.1,
                   h1.2.2.2.2⟩
          · have := hrec.2.2.1
            linarith
          · have := hrec.2.2.2
            simp only [List.length_cons]
            push_cast
            push_cast at this
            linarith
        · rw [if_neg (by
            push_neg
            exact ⟨by linarith, not_lt.mp hWlt⟩)]
          have hW2 : 2 ≤ W := not_lt.mp hWlt
          refine ⟨?_, ?_, ?_, ?_⟩
          · intro p hp
            rcases List.mem_cons.mp hp with rfl | hp
            · exact ⟨rfl, rfl, le_refl _, by
                show z < z + W
                linarith, by
                show z + W ≤ R.bottom
                linarith⟩
            · have h1 := hrec.1 p hp
              exact ⟨h1.1, h1.2.1, by linarith [h1.2.2.1], h1.2.2.2.1,
                     h1.2.2.2.2⟩
          · refine List.pairwise_cons.mpr ⟨?_, hrec.2.1⟩
            intro b hb
            have h1 := hrec.1 b hb
            exact h1.2.2.1
          · simp only [List.map_cons, List.sum_cons, hrh]
            have := hrec.2.2.1
            linarith
          · simp only [List.map_cons, List.sum_cons, hrh, List.length_cons]
            have := hrec.2.2.2
            push_cast
            push_cast at this
            linarith

/-- The area of a row whose rectangles all span the full cross extent equals
the sum of the sliced lengths times the cross length (horizontal case). -/
theorem row_area_horiz (R : TRect) :
    ∀ l : List (Node × TRect),
      (∀ p ∈ l, p.2.top = R.top ∧ p.2.bottom = R.bottom) →
      (l.map fun p => p.2.area).sum
        = ((l.map fun p => p.2.width).sum) * R.height := by
  intro l
  induction l with
  | nil => simp
  | cons q qs ihq =>
      intro hmem
      have hq := hmem q (List.mem_cons_self q qs)
      have hq_height : q.2.height = R.height := by
        simp only [TRect.height, hq.1, hq.2]
      simp only [List.map_cons, List.sum_cons,
        ihq fun p hp => hmem p (List.mem_cons_of_mem q hp)]
      simp only [TRect.area, hq_height]
      ring

/-- The area of a row whose rectangles all span the full cross extent equals
the sum of the sliced lengths times the cross length (vertical case). -/
theorem row_area_vert (R : TRect) :
    ∀ l : List (Node × TRect),
      (∀ p ∈ l, p.2.left = R.left ∧ p.2.right = R.right) →
      (l.map fun p => p.2.area).sum
        = ((l.map fun p => p.2.height).sum) * R.width := by
  intro l
  induction l with
  | nil => simp
  | cons q qs ihq =>
      intro hmem
      have hq := hmem q (List.mem_cons_self q qs)
      have hq_width : q.2.width = R.width := by
        simp only [TRect.width, hq.1, hq.2]
      simp only [List.map_cons, List.sum_cons,
        ihq fun p hp => hmem p (List.mem_cons_of_mem q hp)]
      simp only [TRect.area, hq_width]
      ring

/-- C8: for a sibling list whose sizes sum to the (positive) passed total,
laid into a non-degenerate rectangle `R`, the rectangles kept at that level
have pairwise disjoint interiors, every kept rectangle's far edge along the
slicing axis is clamped to `R`'s far edge, and their summed area is at most
`R`'s area while falling short of it by less than the 2-pixel epsilon times
the number of children (the only loss being the dropped sub-epsilon
children). -/
theorem c8_row_disjoint_clamped_area (R : TRect) (horizontal : Bool)
    (nodes : List Node) (total : ℚ)
    (htot : total = ((sumSizes nodes : ℕ) : ℚ)) (hpos : 0 < total)
    (hw : 2 < R.width) (hh : 2 < R.height) :
    ((rowRects R horizontal nodes total).Pairwise
        fun a b => ∀ x y : ℚ, ¬(a.2.interior x y ∧ b.2.interior x y)) ∧
    (∀ p ∈ rowRects R horizontal nodes total,
        if horizontal then p.2.right ≤ R.right
        else p.2.bottom ≤ R.bottom) ∧
    ((rowRects R horizontal nodes total).map fun p => p.2.area).sum
        ≤ R.area ∧
    R.area
      ≤ ((rowRects R horizontal nodes total).map fun p => p.2.area).sum
        + 2 * nodes.length * (if horizontal then R.height else R.width) := by
  have hdiv : ((sumSizes nodes : ℕ) : ℚ) / total = 1 := by
    rw [← htot, div_self (ne_of_gt hpos)]
  have harea_def : R.area = R.width * R.height := rfl
  have hwdef : R.width = R.right - R.left := rfl
  have hhdef : R.height = R.bottom - R.top := rfl
  cases horizontal with
  | true =>
      have hz : R.left + R.width * (((sumSizes nodes : ℕ) : ℚ) / total)
          ≤ R.right := by
        rw [hdiv, mul_one]
        linarith
      obtain ⟨h1, h2, h3u, h3l⟩ :=
        rowAux_horiz_spec R total hpos hh (by linarith) nodes R.left hz
      rw [hdiv, mul_one] at h3u h3l
      have hrow : rowRects R true nodes total
          = rowAux R true total nodes R.left := by
        simp [rowRects]
      rw [hrow]
      refine ⟨?_, ?_, ?_, ?_⟩
      · refine h2.imp ?_
        intro a b hab x y hxy
        obtain ⟨ha, hb⟩ := hxy
        have hax : x < a.2.right := ha.2.1
        have hbx : b.2.left < x := hb.1
        linarith
      · intro p hp
        simp only [if_true]
        exact (h1 p hp).2.2.2.2
      · rw [row_area_horiz R _ fun p hp => ⟨(h1 p hp).1, (h1 p hp).2.1⟩]
        have hH0 : (0 : ℚ) ≤ R.height := by linarith
        calc ((rowAux R true total nodes R.left).map
                fun p => p.2.width).sum * R.height
            ≤ R.width * R.height := mul_le_mul_of_nonneg_right h3u hH0
          _ = R.area := harea_def.symm
      · rw [row_area_horiz R _ fun p hp => ⟨(h1 p hp).1, (h1 p hp).2.1⟩]
        have hH0 : (0 : ℚ) ≤ R.height := by linarith
        have hmul := mul_le_mul_of_nonneg_right h3l hH0
        have hexp : (R.width - 2 * (nodes.length : ℚ)) * R.height
            = R.width * R.height - 2 * nodes.length * R.height := by ring
        rw [hexp] at hmul
        rw [harea_def]
        simp only [eq_self_iff_true, if_true]
        linarith
  | false =>
      have hz : R.top + R.height * (((sumSizes nodes : ℕ) : ℚ) / total)
          ≤ R.bottom := by
        rw [hdiv, mul_one]
        linarith
      obtain ⟨h1, h2, h3u, h3l⟩ :=
        rowAux_vert_spec R total hpos hw (by linarith) nodes R.top hz
      rw [hdiv, mul_one] at h3u h3l
      have hrow : rowRects R false nodes total
          = rowAux R false total nodes R.top := by
        simp [rowRects]
      rw [hrow]
      refine ⟨?_, ?_, ?_, ?_⟩
      · refine h2.imp ?_
        intro a b hab x y hxy
        obtain ⟨ha, hb⟩ := hxy
        have hay : y < a.2.bottom := ha.2.2.2
        have hby : b.2.top < y := hb.2.2.1
        linarith
      · intro p hp
        simp only [Bool.false_eq_true, if_false]
        exact (h1 p hp).2.2.2.2
      · rw [row_area_vert R _ fun p hp => ⟨(h1 p hp).1, (h1 p hp).2.1⟩]
        have hW0 : (0 : ℚ) ≤ R.width := by linarith
        calc ((rowAux R false total nodes R.top).map
                fun p => p.2.height).sum * R.width
            ≤ R.height * R.width := mul_le_mul_of_nonneg_right h3u hW0
          _ = R.area := by rw [harea_def]; ring
      · rw [row_area_vert R _ fun p hp => ⟨(h1 p hp).1, (h1 p hp).2.1⟩]
        have hW0 : (0 : ℚ) ≤ R.width := by linarith
        have hmul := mul_le_mul_of_nonneg_right h3l hW0
        have hexp : (R.height - 2 * (nodes.length : ℚ)) * R.width
            = R.width * R.height - 2 * nodes.length * R.width := by ring
        rw [hexp] at hmul
        rw [harea_def]
        simp only [Bool.false_eq_true, if_false]
        linarith

/-- Witness for C8: the two-file sibling list `c8Nodes` (total size 4) laid
horizontally into the 100×100 rectangle `c8R`. -/
theorem c8_row_disjoint_clamped_area_witness :
    ((rowRects c8R true c8Nodes 4).Pairwise
        fun a b => ∀ x y : ℚ, ¬(a.2.interior x y ∧ b.2.interior x y)) ∧
    (∀ p ∈ rowRects c8R true c8Nodes 4,
        if (true : Bool) then p.2.right ≤ c8R.right
        else p.2.bottom ≤ c8R.bottom) ∧
    ((rowRects c8R true c8Nodes 4).map fun p => p.2.area).sum ≤ c8R.area ∧
    c8R.area
      ≤ ((rowRects c8R true c8Nodes 4).map fun p => p.2.area).sum
        + 2 * c8Nodes.length * (if (true : Bool) then c8R.height
                                 else c8R.width) :=
  c8_row_disjoint_clamped_area c8R true c8Nodes 4
    (by norm_num [c8Nodes, sumSizes, Node.size])
    (by norm_num)
    (by norm_num [c8R, TRect.width])
    (by norm_num [c8R, TRect.height])

/-- Replacing an entry that exists makes it the one found. -/
theorem findEntry_setEntry_self {es : Entries} {n : String} {c : FSTree}
    (h : findEntry es n = some c) (v : FSTree) :
    findEntry (setEntry es n v) n = some v := by
  induction es with
  | nil => simp [findEntry] at h
  | cons e rest ih =>
      obtain ⟨m, c'⟩ := e
      by_cases hm : m = n
      · simp [findEntry, setEntry, hm]
      · simp [findEntry, setEntry, hm] at h ⊢
        exact ih h

/-- Replacing one name leaves lookups of other names unchanged. -/
theorem findEntry_setEntry_ne {es : Entries} {n q : String} (h : q ≠ n)
    (v : FSTree) :
    findEntry (setEntry es n v) q = findEntry es q := by
  induction es with
  | nil => simp [setEntry]
  | cons e rest ih =>
      obtain ⟨m, c'⟩ := e
      by_cases hm : m = n
      · subst hm
        have hq : ¬(m = q) := fun hh => h (hh ▸ rfl)
        simp [setEntry, findEntry, hq]
      · by_cases hq : m = q
        · simp [setEntry, findEntry, hm, hq, h]
        · simp [setEntry, findEntry, hm, hq, ih]

/-- Replacing an absent name is a no-op. -/
theorem setEntry_absent {es : Entries} {n : String}
    (h : findEntry es n = none) (v : FSTree) : setEntry es n v = es := by
  induction es with
  | nil => rfl
  | cons e rest ih =>
      obtain ⟨m, c'⟩ := e
      by_cases hm : m = n
      · simp [findEntry, hm] at h
      · simp [findEntry, hm] at h
        simp [setEntry, hm, ih h]

/-- Two successive replacements of the same name collapse to the last. -/
theorem setEntry_setEntry (es : Entries) (n : String) (v w : FSTree) :
    setEntry (setEntry es n v) n w = setEntry es n w := by
  induction es with
  | nil => rfl
  | cons e rest ih =>
      obtain ⟨m, c'⟩ := e
      by_cases hm : m = n <;> simp [setEntry, hm, ih]

/-- Replacing a name that occurs only in the appended singleton rewrites the
singleton. -/
theorem setEntry_append_absent {es : Entries} {n : String}
    (h : findEntry es n = none) (w v : FSTree) :
    setEntry (es ++ [(n, w)]) n v = es ++ [(n, v)] := by
  induction es with
  | nil => simp [setEntry]
  | cons e rest ih =>
      obtain ⟨m, c'⟩ := e
      by_cases hm : m = n
      · simp [findEntry, hm] at h
      · simp [findEntry, hm] at h
        simp [setEntry, hm, ih h]

/-- Appending entries is only consulted when the front misses. -/
theorem findEntry_append_of_none {es : Entries} {q : String}
    (h : findEntry es q = none) (es₂ : Entries) :
    findEntry (es ++ es₂) q = findEntry es₂ q := by
  induction es with
  | nil => rfl
  | cons e rest ih =>
      obtain ⟨m, c'⟩ := e
      by_cases hm : m = q
      · simp [findEntry, hm] at h
      · simp [findEntry, hm] at h ⊢
        exact ih h

/-- A hit in the front entries survives appending. -/
theorem findEntry_append_of_some {es : Entries} {q : String} {c : FSTree}
    (h : findEntry es q = some c) (es₂ : Entries) :
    findEntry (es ++ es₂) q = some c := by
  induction es with
  | nil => simp [findEntry] at h
  | cons e rest ih =>
      obtain ⟨m, c'⟩ := e
      by_cases hm : m = q <;> simp [findEntry, hm] at h ⊢
      · exact h
      · exact ih h

/-- Names of members of an entry list without a given name differ from it. -/
theorem findEntry_none_of_mem {es : Entries} {n m : String} {c : FSTree}
    (h : findEntry es n = none) (hm : (m, c) ∈ es) : m ≠ n := by
  induction es with
  | nil => simp at hm
  | cons e rest ih =>
      obtain ⟨m', c'⟩ := e
      by_cases hm' : m' = n
      · simp [findEntry, hm'] at h
      · simp [findEntry, hm'] at h
        rcases List.mem_cons.mp hm with heq | hmem
        · cases heq
          exact hm'
        · exact ih h hmem

/-- Path resolution splits over path concatenation. -/
theorem lookup_append (t : FSTree) (p q : FPath) :
    lookupFS t (p ++ q) = (lookupFS t p).bind fun u => lookupFS u q := by
  induction p generalizing t with
  | nil => simp [lookupFS]
  | cons a p' ih =>
      cases t with
      | file sz => simp [lookupFS]
      | dir es =>
          simp only [List.cons_append, lookupFS]
          rcases findEntry es a with _ | c
          · simp
          · simp [ih]

/-- Every prefix of a resolvable path resolves. -/
theorem lookup_prefix_isSome {fs : FSTree} {p r : FPath} {u : FSTree}
    (h : lookupFS fs (p ++ r) = some u) : (lookupFS fs p).isSome := by
  rw [lookup_append] at h
  rcases hl : lookupFS fs p with _ | w
  · rw [hl] at h
    simp at h
  · simp

/-- Divergence survives extending the first path. -/
theorem divergesB_extend {p q : FPath} (h : divergesB p q = true)
    (r : FPath) : divergesB (p ++ r) q = true := by
  induction p generalizing q with
  | nil => simp [divergesB] at h
  | cons a p' ih =>
      cases q with
      | nil => simp [divergesB] at h
      | cons b q' =>
          by_cases hab : a = b
          · simp [divergesB, hab] at h ⊢
            exact ih h
          · simp [divergesB, hab]

/-- Divergence is symmetric. -/
theorem divergesB_comm (p q : FPath) : divergesB p q = divergesB q p := by
  induction p generalizing q with
  | nil => cases q <;> rfl
  | cons a p' ih =>
      cases q with
      | nil => rfl
      | cons b q' =>
          by_cases hab : a = b
          · subst hab
            simp [divergesB, ih]
          · have hba : ¬(b = a) := fun h => hab h.symm
            simp [divergesB, hab, hba]

/-- Two paths neither of which prefixes the other diverge. -/
theorem divergesB_of_incomparable {p q : FPath}
    (h₁ : ¬p.isPrefixOf q = true) (h₂ : ¬q.isPrefixOf p = true) :
    divergesB p q = true := by
  induction p generalizing q with
  | nil => exact absurd (by cases q <;> rfl) h₁
  | cons a p' ih =>
      cases q with
      | nil =>
          exact absurd (rfl : ([] : FPath).isPrefixOf (a :: p') = true) h₂
      | cons b q' =>
          by_cases hab : a = b
          · subst hab
            simp only [List.isPrefixOf, beq_self_eq_true, Bool.true_and]
              at h₁ h₂
            simp [divergesB, ih h₁ h₂]
          · simp [divergesB, hab]

/-- One-step equation: resolving below a directory follows the entry. -/
theorem lookup_dir_found {es : Entries} {a : String} {c : FSTree}
    (hf : findEntry es a = some c) (p : FPath) :
    lookupFS (.dir es) (a :: p) = lookupFS c p := by
  simp [lookupFS, hf]

/-- One-step equation: resolving a missing entry fails. -/
theorem lookup_dir_missing {es : Entries} {a : String}
    (hf : findEntry es a = none) (p : FPath) :
    lookupFS (.dir es) (a :: p) = none := by
  simp [lookupFS, hf]

/-- One-step equation: insertion into a file fails. -/
theorem insertAt_file (sz : Nat) (a : String) (p : FPath) (v : FSTree) :
    insertAt (.file sz) (a :: p) v = none := by
  cases p <;> rfl

/-- One-step equation: replacing an existing final component. -/
theorem insertAt_last_found {es : Entries} {a : String} {c : FSTree}
    (hf : findEntry es a = some c) (v : FSTree) :
    insertAt (.dir es) [a] v = some (.dir (setEntry es a v)) := by
  simp [insertAt, hf]

/-- One-step equation: appending a fresh final component. -/
theorem insertAt_last_new {es : Entries} {a : String}
    (hf : findEntry es a = none) (v : FSTree) :
    insertAt (.dir es) [a] v = some (.dir (es ++ [(a, v)])) := by
  simp [insertAt, hf]

/-- One-step equation: descending through an existing entry. -/
theorem insertAt_cons_found {es : Entries} {a : String} {c : FSTree}
    (hf : findEntry es a = some c) {p : FPath} (hp : p ≠ []) (v : FSTree) :
    insertAt (.dir es) (a :: p) v
      = (insertAt c p v).map fun c' => .dir (setEntry es a c') := by
  cases p with
  | nil => exact absurd rfl hp
  | cons d p'' => simp [insertAt, hf]

/-- One-step equation: descending through a missing entry fails. -/
theorem insertAt_cons_missing {es : Entries} {a : String}
    (hf : findEntry es a = none) {p : FPath} (hp : p ≠ []) (v : FSTree) :
    insertAt (.dir es) (a :: p) v = none := by
  cases p with
  | nil => exact absurd rfl hp
  | cons d p'' => simp [insertAt, hf]

/-- After a successful insertion the inserted path resolves to the inserted
subtree. -/
theorem insertAt_self {p : FPath} :
    ∀ {t t' v : FSTree}, insertAt t p v = some t' →
      lookupFS t' p = some v := by
  induction p with
  | nil =>
      intro t t' v h
      simp [insertAt] at h
      simp [lookupFS, h]
  | cons n p' ih =>
      intro t t' v h
      cases t with
      | file sz => rw [insertAt_file] at h; exact absurd h (by simp)
      | dir es =>
          cases p' with
          | nil =>
              rcases hf : findEntry es n with _ | c
              · rw [insertAt_last_new hf] at h
                obtain rfl : FSTree.dir (es ++ [(n, v)]) = t' := by
                  simpa using h
                rw [lookup_dir_found (c := v) (by
                  rw [findEntry_append_of_none hf]
                  simp [findEntry]) []]
                rfl
              · rw [insertAt_last_found hf] at h
                obtain rfl : FSTree.dir (setEntry es n v) = t' := by
                  simpa using h
                rw [lookup_dir_found (findEntry_setEntry_self hf v) []]
                rfl
          | cons d p'' =>
              rcases hf : findEntry es n with _ | c
              · rw [insertAt_cons_missing hf (by simp)] at h
                exact absurd h (by simp)
              · rw [insertAt_cons_found hf (by simp)] at h
                rcases hi : insertAt c (d :: p'') v with _ | c'
                · rw [hi] at h
                  exact absurd h (by simp)
                · rw [hi] at h
                  obtain rfl : FSTree.dir (setEntry es n c') = t' := by
                    simpa using h
                  rw [lookup_dir_found (findEntry_setEntry_self hf c')]
                  exact ih hi

/-- Insertion along one path leaves every diverging path's resolution
unchanged. -/
theorem insertAt_diverge {p : FPath} :
    ∀ {q : FPath} {t t' v : FSTree}, divergesB p q = true →
      insertAt t p v = some t' → lookupFS t' q = lookupFS t q := by
  induction p with
  | nil =>
      intro q t t' v hd
      simp [divergesB] at hd
  | cons a p' ih =>
      intro q t t' v hd h
      cases q with
      | nil => simp [divergesB] at hd
      | cons b q' =>
          cases t with
          | file sz => rw [insertAt_file] at h; exact absurd h (by simp)
          | dir es =>
              by_cases hab : a = b
              · subst hab
                have hd' : divergesB p' q' = true := by
                  simpa [divergesB] using hd
                cases p' with
                | nil => simp [divergesB] at hd'
                | cons d p'' =>
                    rcases hf : findEntry es a with _ | c
                    · rw [insertAt_cons_missing hf (by simp)] at h
                      exact absurd h (by simp)
                    · rw [insertAt_cons_found hf (by simp)] at h
                      rcases hi : insertAt c (d :: p'') v with _ | c'
                      · rw [hi] at h
                        exact absurd h (by simp)
                      · rw [hi] at h
                        obtain rfl : FSTree.dir (setEntry es a c') = t' := by
                          simpa using h
                        rw [lookup_dir_found
                          (findEntry_setEntry_self hf c'),
                          lookup_dir_found hf]
                        exact ih hd' hi
              · have hba : b ≠ a := fun hh => hab hh.symm
                cases p' with
                | nil =>
                    rcases hf : findEntry es a with _ | c
                    · rw [insertAt_last_new hf] at h
                      obtain rfl : FSTree.dir (es ++ [(a, v)]) = t' := by
                        simpa using h
                      rcases hfb : findEntry es b with _ | cb
                      · rw [lookup_dir_missing (by
                          rw [findEntry_append_of_none hfb]
                          simp [findEntry, hab]),
                          lookup_dir_missing hfb]
                      · rw [lookup_dir_found
                          (findEntry_append_of_some hfb _),
                          lookup_dir_found hfb]
                    · rw [insertAt_last_found hf] at h
                      obtain rfl : FSTree.dir (setEntry es a v) = t' := by
                        simpa using h
                      rcases hfb : findEntry es b with _ | cb
                      · rw [lookup_dir_missing (by
                          rw [findEntry_setEntry_ne hba]
                          exact hfb), lookup_dir_missing hfb]
                      · rw [lookup_dir_found (by
                          rw [findEntry_setEntry_ne hba]
                          exact hfb), lookup_dir_found hfb]
                | cons d p'' =>
                    rcases hf : findEntry es a with _ | c
                    · rw [insertAt_cons_missing hf (by simp)] at h
                      exact absurd h (by simp)
                    · rw [insertAt_cons_found hf (by simp)] at h
                      rcases hi : insertAt c (d :: p'') v with _ | c'
                      · rw [hi] at h
                        exact absurd h (by simp)
                      · rw [hi] at h
                        obtain rfl : FSTree.dir (setEntry es a c') = t' := by
                          simpa using h
                        rcases hfb : findEntry es b with _ | cb
                        · rw [lookup_dir_missing (by
                            rw [findEntry_setEntry_ne hba]
                            exact hfb), lookup_dir_missing hfb]
                        · rw [lookup_dir_found (by
                            rw [findEntry_setEntry_ne hba]
                            exact hfb), lookup_dir_found hfb]

/-- Inserting one step below a path that resolves to a directory always
succeeds. -/
theorem insertAt_parent_ok {ps : FPath} :
    ∀ {t : FSTree} {es : Entries}, lookupFS t ps = some (.dir es) →
      ∀ (n : String) (v : FSTree), ∃ u, insertAt t (ps ++ [n]) v = some u := by
  induction ps with
  | nil =>
      intro t es h n v
      obtain rfl : t = FSTree.dir es := by simpa [lookupFS] using h
      rcases hf : findEntry es n with _ | c
      · exact ⟨_, insertAt_last_new hf v⟩
      · exact ⟨_, insertAt_last_found hf v⟩
  | cons a ps' ih =>
      intro t es h n v
      cases t with
      | file sz => simp [lookupFS] at h
      | dir es₀ =>
          rcases hf : findEntry es₀ a with _ | c
          · rw [lookup_dir_missing hf] at h
            exact absurd h (by simp)
          · rw [lookup_dir_found hf] at h
            obtain ⟨u, hu⟩ := ih h n v
            refine ⟨.dir (setEntry es₀ a u), ?_⟩
            rw [List.cons_append,
              insertAt_cons_found hf (by simp), hu]
            rfl

/-- Whether an insertion succeeds does not depend on the inserted value. -/
theorem insertAt_isSome_congr {p : FPath} :
    ∀ {t v v' : FSTree}, (insertAt t p v).isSome = true →
      (insertAt t p v').isSome = true := by
  induction p with
  | nil =>
      intro t v v' _
      simp [insertAt]
  | cons n p' ih =>
      intro t v v' h
      cases t with
      | file sz => rw [insertAt_file] at h; simp at h
      | dir es =>
          cases p' with
          | nil =>
              rcases hf : findEntry es n with _ | c
              · rw [insertAt_last_new hf]
                simp
              · rw [insertAt_last_found hf]
                simp
          | cons d p'' =>
              rcases hf : findEntry es n with _ | c
              · rw [insertAt_cons_missing hf (by simp)] at h
                simp at h
              · rw [insertAt_cons_found hf (by simp)] at h
                rw [insertAt_cons_found hf (by simp)]
                rcases hi : insertAt c (d :: p'') v with _ | c'
                · rw [hi] at h
                  simp at h
                · have h' : (insertAt c (d :: p'') v).isSome = true := by
                    simp [hi]
                  obtain ⟨u, hu⟩ := Option.isSome_iff_exists.mp (ih h')
                  rw [hu]
                  simp

/-- Composing an insertion of a directory with an insertion of a fresh entry
below it equals a single insertion of the extended directory. -/
theorem insert_insert {dest : FPath} :
    ∀ {t g : FSTree} {acc : Entries} {n : String} {v : FSTree},
      insertAt t dest (.dir acc) = some g → findEntry acc n = none →
      insertAt g (dest ++ [n]) v
        = insertAt t dest (.dir (acc ++ [(n, v)])) := by
  induction dest with
  | nil =>
      intro t g acc n v h hn
      obtain rfl : FSTree.dir acc = g := by simpa [insertAt] using h
      simp only [List.nil_append]
      rw [insertAt_last_new hn]
      rfl
  | cons a dest' ih =>
      intro t g acc n v h hn
      cases t with
      | file sz => rw [insertAt_file] at h; exact absurd h (by simp)
      | dir es =>
          cases dest' with
          | nil =>
              rcases hf : findEntry es a with _ | c
              · rw [insertAt_last_new hf] at h
                obtain rfl : FSTree.dir (es ++ [(a, .dir acc)]) = g := by
                  simpa using h
                rw [List.cons_append, List.nil_append,
                  insertAt_cons_found (c := .dir acc) (by
                    rw [findEntry_append_of_none hf]
                    simp [findEntry]) (by simp),
                  insertAt_last_new hn, insertAt_last_new hf]
                simp [setEntry_append_absent hf]
              · rw [insertAt_last_found hf] at h
                obtain rfl : FSTree.dir (setEntry es a (.dir acc)) = g := by
                  simpa using h
                rw [List.cons_append, List.nil_append,
                  insertAt_cons_found
                    (findEntry_setEntry_self hf (.dir acc)) (by simp),
                  insertAt_last_new hn, insertAt_last_found hf]
                simp [setEntry_setEntry]
          | cons d dest'' =>
              rcases hf : findEntry es a with _ | c
              · rw [insertAt_cons_missing hf (by simp)] at h
                exact absurd h (by simp)
              · rw [insertAt_cons_found hf (by simp)] at h
                rcases hi : insertAt c (d :: dest'') (.dir acc) with _ | c'
                · rw [hi] at h
                  exact absurd h (by simp)
                · rw [hi] at h
                  obtain rfl : FSTree.dir (setEntry es a c') = g := by
                    simpa using h
                  have hrec := ih (v := v) hi hn
                  rw [List.cons_append,
                    insertAt_cons_found
                      (findEntry_setEntry_self hf c') (by simp),
                    List.cons_append] at *
                  rw [hrec, insertAt_cons_found hf (by simp)]
                  cases insertAt c (d :: dest'') (.dir (acc ++ [(n, v)])) <;>
                    simp [setEntry_setEntry]

/-- One-step equation: resolving below a file fails. -/
theorem lookup_file_cons (sz : Nat) (a : String) (p : FPath) :
    lookupFS (.file sz) (a :: p) = none := rfl

/-- One-step equation: `create_dir_all` on a file path fails. -/
theorem cda_file (sz : Nat) (p : FPath) :
    createDirAll (.file sz) p = none := by
  cases p <;> rfl

/-- One-step equation: `create_dir_all` descends through an existing
entry. -/
theorem cda_found {es : Entries} {a : String} {c : FSTree}
    (hf : findEntry es a = some c) (p : FPath) :
    createDirAll (.dir es) (a :: p)
      = (createDirAll c p).map fun c' => .dir (setEntry es a c') := by
  simp [createDirAll, hf]

/-- One-step equation: `create_dir_all` appends a fresh chain. -/
theorem cda_missing {es : Entries} {a : String}
    (hf : findEntry es a = none) (p : FPath) :
    createDirAll (.dir es) (a :: p)
      = some (.dir (es ++ [(a, mkDirChain p)])) := by
  simp [createDirAll, hf]

/-- A fresh directory chain resolves nothing along a diverging path. -/
theorem lookup_mkDirChain_diverge {p : FPath} :
    ∀ {q : FPath}, divergesB p q = true →
      lookupFS (mkDirChain p) q = none := by
  induction p with
  | nil =>
      intro q hd
      simp [divergesB] at hd
  | cons a p' ih =>
      intro q hd
      cases q with
      | nil => simp [divergesB] at hd
      | cons b q' =>
          by_cases hab : a = b
          · subst hab
            have hd' : divergesB p' q' = true := by
              simpa [divergesB] using hd
            rw [show mkDirChain (a :: p') = .dir [(a, mkDirChain p')]
              from rfl,
              lookup_dir_found (c := mkDirChain p')
                (by simp [findEntry]) q']
            exact ih hd'
          · rw [show mkDirChain (a :: p') = .dir [(a, mkDirChain p')]
              from rfl,
              lookup_dir_missing (by simp [findEntry, hab]) q']

/-- Under a parent that resolves to a directory missing the final name,
`create_dir_all` coincides with inserting an empty directory. -/
theorem cda_eq_insert {ps : FPath} :
    ∀ {t : FSTree} {es₀ : Entries} {n : String},
      lookupFS t ps = some (.dir es₀) → findEntry es₀ n = none →
      createDirAll t (ps ++ [n]) = insertAt t (ps ++ [n]) (.dir []) := by
  induction ps with
  | nil =>
      intro t es₀ n h hn
      obtain rfl : t = FSTree.dir es₀ := by simpa [lookupFS] using h
      rw [List.nil_append, cda_missing hn, insertAt_last_new hn]
      rfl
  | cons a ps' ih =>
      intro t es₀ n h hn
      cases t with
      | file sz => rw [lookup_file_cons] at h; exact absurd h (by simp)
      | dir es =>
          rcases hf : findEntry es a with _ | c
          · rw [lookup_dir_missing hf] at h
            exact absurd h (by simp)
          · rw [lookup_dir_found hf] at h
            rw [List.cons_append, cda_found hf,
              insertAt_cons_found hf (by simp), ih h hn]

/-- A successful `create_dir_all` leaves every diverging path's resolution
unchanged. -/
theorem cda_diverge {p : FPath} :
    ∀ {q : FPath} {t t' : FSTree}, divergesB p q = true →
      createDirAll t p = some t' → lookupFS t' q = lookupFS t q := by
  induction p with
  | nil =>
      intro q t t' hd
      simp [divergesB] at hd
  | cons a p' ih =>
      intro q t t' hd h
      cases q with
      | nil => simp [divergesB] at hd
      | cons b q' =>
          cases t with
          | file sz => rw [cda_file] at h; exact absurd h (by simp)
          | dir es =>
              by_cases hab : a = b
              · subst hab
                have hd' : divergesB p' q' = true := by
                  simpa [divergesB] using hd
                rcases hf : findEntry es a with _ | c
                · rw [cda_missing hf] at h
                  obtain rfl : FSTree.dir (es ++ [(a, mkDirChain p')])
                      = t' := by simpa using h
                  rw [lookup_dir_found (c := mkDirChain p') (by
                      rw [findEntry_append_of_none hf]
                      simp [findEntry]) q',
                    lookup_dir_missing hf]
                  exact lookup_mkDirChain_diverge hd'
                · rw [cda_found hf] at h
                  rcases hi : createDirAll c p' with _ | c'
                  · rw [hi] at h
                    exact absurd h (by simp)
                  · rw [hi] at h
                    obtain rfl : FSTree.dir (setEntry es a c') = t' := by
                      simpa using h
                    rw [lookup_dir_found (findEntry_setEntry_self hf c'),
                      lookup_dir_found hf]
                    exact ih hd' hi
              · have hba : b ≠ a := fun hh => hab hh.symm
                rcases hf : findEntry es a with _ | c
                · rw [cda_missing hf] at h
                  obtain rfl : FSTree.dir (es ++ [(a, mkDirChain p')])
                      = t' := by simpa using h
                  rcases hfb : findEntry es b with _ | cb
                  · rw [lookup_dir_missing (by
                      rw [findEntry_append_of_none hfb]
                      simp [findEntry, hab]), lookup_dir_missing hfb]
                  · rw [lookup_dir_found
                      (findEntry_append_of_some hfb _),
                      lookup_dir_found hfb]
                · rw [cda_found hf] at h
                  rcases hi : createDirAll c p' with _ | c'
                  · rw [hi] at h
                    exact absurd h (by simp)
                  · rw [hi] at h
                    obtain rfl : FSTree.dir (setEntry es a c') = t' := by
                      simpa using h
                    rcases hfb : findEntry es b with _ | cb
                    · rw [lookup_dir_missing (by
                        rw [findEntry_setEntry_ne hba]
                        exact hfb), lookup_dir_missing hfb]
                    · rw [lookup_dir_found (by
                        rw [findEntry_setEntry_ne hba]
                        exact hfb), lookup_dir_found hfb]

/-- Decomposition of entry-list well-formedness at a cons. -/
theorem wfEntries_cons {n : String} {c : FSTree} {rest : Entries} :
    wfEntries ((n, c) :: rest) = true ↔
      findEntry rest n = none ∧ wfFS c = true ∧ wfEntries rest = true := by
  simp [wfEntries, Bool.and_eq_true, Option.isNone_iff_eq_none, and_assoc]

/-- In a well-formed entry list every found subtree is well-formed. -/
theorem wf_findEntry {es : Entries} {n : String} {c : FSTree}
    (hwf : wfEntries es = true) (h : findEntry es n = some c) :
    wfFS c = true := by
  induction es with
  | nil => simp [findEntry] at h
  | cons e rest ih =>
      obtain ⟨m, c'⟩ := e
      obtain ⟨_, hc', hrest⟩ := wfEntries_cons.mp hwf
      by_cases hm : m = n
      · simp [findEntry, hm] at h
        exact h ▸ hc'
      · simp [findEntry, hm] at h
        exact ih hrest h

/-- Every subtree of a well-formed tree is well-formed. -/
theorem wf_lookup {p : FPath} :
    ∀ {t u : FSTree}, wfFS t = true → lookupFS t p = some u →
      wfFS u = true := by
  induction p with
  | nil =>
      intro t u hwf h
      obtain rfl : t = u := by simpa [lookupFS] using h
      exact hwf
  | cons a p' ih =>
      intro t u hwf h
      cases t with
      | file sz => rw [lookup_file_cons] at h; exact absurd h (by simp)
      | dir es =>
          rcases hf : findEntry es a with _ | c
          · rw [lookup_dir_missing hf] at h
            exact absurd h (by simp)
          · rw [lookup_dir_found hf] at h
            exact ih (wf_findEntry (by simpa [wfFS] using hwf) hf) h

/-- Replacing an entry with a well-formed subtree preserves
well-formedness. -/
theorem wf_setEntry {es : Entries} {n : String} {v : FSTree}
    (hwf : wfEntries es = true) (hv : wfFS v = true) :
    wfEntries (setEntry es n v) = true := by
  induction es with
  | nil => simpa [setEntry] using hwf
  | cons e rest ih =>
      obtain ⟨m, c'⟩ := e
      obtain ⟨hnone, hc', hrest⟩ := wfEntries_cons.mp hwf
      by_cases hm : m = n
      · subst hm
        simp only [setEntry, if_pos rfl]
        exact wfEntries_cons.mpr ⟨hnone, hv, hrest⟩
      · simp only [setEntry, if_neg hm]
        refine wfEntries_cons.mpr ⟨?_, hc', ih hrest⟩
        rw [findEntry_setEntry_ne hm]
        exact hnone

/-- Appending a fresh well-formed entry preserves well-formedness. -/
theorem wf_append_one {es : Entries} {n : String} {v : FSTree}
    (hwf : wfEntries es = true) (hn : findEntry es n = none)
    (hv : wfFS v = true) : wfEntries (es ++ [(n, v)]) = true := by
  induction es with
  | nil =>
      simp only [List.nil_append]
      exact wfEntries_cons.mpr ⟨rfl, hv, rfl⟩
  | cons e rest ih =>
      obtain ⟨m, c'⟩ := e
      obtain ⟨hnone, hc', hrest⟩ := wfEntries_cons.mp hwf
      have hm : ¬(m = n) := by
        intro hh
        simp [findEntry, hh] at hn
      have hrn : findEntry rest n = none := by
        simpa [findEntry, hm] using hn
      simp only [List.cons_append]
      refine wfEntries_cons.mpr ⟨?_, hc', ih hrest hrn⟩
      rw [findEntry_append_of_none hnone]
      have hnm : ¬(n = m) := fun hh => hm hh.symm
      simp [findEntry, hnm]

/-- Inserting a well-formed subtree anywhere in a well-formed tree yields a
well-formed tree. -/
theorem wf_insertAt {p : FPath} :
    ∀ {t v t' : FSTree}, wfFS t = true → wfFS v = true →
      insertAt t p v = some t' → wfFS t' = true := by
  induction p with
  | nil =>
      intro t v t' _ hv h
      obtain rfl : v = t' := by simpa [insertAt] using h
      exact hv
  | cons n p' ih =>
      intro t v t' hwf hv h
      cases t with
      | file sz => rw [insertAt_file] at h; exact absurd h (by simp)
      | dir es =>
          have hes : wfEntries es = true := by simpa [wfFS] using hwf
          cases p' with
          | nil =>
              rcases hf : findEntry es n with _ | c
              · rw [insertAt_last_new hf] at h
                obtain rfl : FSTree.dir (es ++ [(n, v)]) = t' := by
                  simpa using h
                simpa [wfFS] using wf_append_one hes hf hv
              · rw [insertAt_last_found hf] at h
                obtain rfl : FSTree.dir (setEntry es n v) = t' := by
                  simpa using h
                simpa [wfFS] using wf_setEntry hes hv
          | cons d p'' =>
              rcases hf : findEntry es n with _ | c
              · rw [insertAt_cons_missing hf (by simp)] at h
                exact absurd h (by simp)
              · rw [insertAt_cons_found hf (by simp)] at h
                rcases hi : insertAt c (d :: p'') v with _ | c'
                · rw [hi] at h
                  exact absurd h (by simp)
                · rw [hi] at h
                  obtain rfl : FSTree.dir (setEntry es n c') = t' := by
                    simpa using h
                  have hc' : wfFS c' = true :=
                    ih (wf_findEntry hes hf) hv hi
                  simpa [wfFS] using wf_setEntry hes hc'

/-- Removing a name leaves lookups of other names unchanged. -/
theorem findEntry_removeEntry_ne {es : Entries} {n q : String}
    (h : q ≠ n) : findEntry (removeEntry es n) q = findEntry es q := by
  induction es with
  | nil => rfl
  | cons e rest ih =>
      obtain ⟨m, c'⟩ := e
      by_cases hm : m = n
      · subst hm
        have hq : ¬(m = q) := fun hh => h (hh ▸ rfl)
        simp [removeEntry, findEntry, hq]
      · by_cases hq : m = q
        · simp [removeEntry, findEntry, hm, hq, h]
        · simp [removeEntry, findEntry, hm, hq, ih]

/-- In a well-formed entry list, removing a name makes it unresolvable. -/
theorem findEntry_removeEntry_self {es : Entries} {n : String}
    (hwf : wfEntries es = true) :
    findEntry (removeEntry es n) n = none := by
  induction es with
  | nil => rfl
  | cons e rest ih =>
      obtain ⟨m, c'⟩ := e
      obtain ⟨hnone, _, hrest⟩ := wfEntries_cons.mp hwf
      by_cases hm : m = n
      · subst hm
        simpa [removeEntry] using hnone
      · simp [removeEntry, findEntry, hm, ih hrest]

/-- Removing a nonempty path from a well-formed tree makes it
unresolvable. -/
theorem removeAt_self_none {p : FPath} :
    ∀ {t : FSTree}, wfFS t = true → p ≠ [] →
      lookupFS (removeAt t p) p = none := by
  induction p with
  | nil => intro t _ hne; exact absurd rfl hne
  | cons n p' ih =>
      intro t hwf _
      cases t with
      | file sz =>
          rw [show removeAt (.file sz) (n :: p') = .file sz from by
            cases p' <;> rfl]
          exact lookup_file_cons sz n p'
      | dir es =>
          have hes : wfEntries es = true := by simpa [wfFS] using hwf
          cases p' with
          | nil =>
              rw [show removeAt (.dir es) [n] = .dir (removeEntry es n)
                from rfl]
              exact lookup_dir_missing (findEntry_removeEntry_self hes) []
          | cons d p'' =>
              rcases hf : findEntry es n with _ | c
              · rw [show removeAt (.dir es) (n :: d :: p'') = .dir es
                  from by simp [removeAt, hf]]
                exact lookup_dir_missing hf _
              · rw [show removeAt (.dir es) (n :: d :: p'')
                    = .dir (setEntry es n (removeAt c (d :: p'')))
                  from by simp [removeAt, hf],
                  lookup_dir_found (findEntry_setEntry_self hf _)]
                exact ih (wf_findEntry hes hf) (by simp)

/-- Removal along one path leaves every diverging path's resolution
unchanged. -/
theorem removeAt_diverge {p : FPath} :
    ∀ {q : FPath} {t : FSTree}, divergesB p q = true →
      lookupFS (removeAt t p) q = lookupFS t q := by
  induction p with
  | nil =>
      intro q t hd
      simp [divergesB] at hd
  | cons a p' ih =>
      intro q t hd
      cases q with
      | nil => simp [divergesB] at hd
      | cons b q' =>
          cases t with
          | file sz =>
              rw [show removeAt (.file sz) (a :: p') = .file sz from by
                cases p' <;> rfl]
          | dir es =>
              by_cases hab : a = b
              · subst hab
                have hd' : divergesB p' q' = true := by
                  simpa [divergesB] using hd
                cases p' with
                | nil => simp [divergesB] at hd'
                | cons d p'' =>
                    rcases hf : findEntry es a with _ | c
                    · rw [show removeAt (.dir es) (a :: d :: p'')
                          = .dir es from by simp [removeAt, hf]]
                    · rw [show removeAt (.dir es) (a :: d :: p'')
                          = .dir (setEntry es a (removeAt c (d :: p'')))
                        from by simp [removeAt, hf],
                        lookup_dir_found (findEntry_setEntry_self hf _),
                        lookup_dir_found hf]
                      exact ih hd'
              · have hba : b ≠ a := fun hh => hab hh.symm
                cases p' with
                | nil =>
                    rw [show removeAt (.dir es) [a]
                        = .dir (removeEntry es a) from rfl]
                    rcases hfb : findEntry es b with _ | cb
                    · rw [lookup_dir_missing (by
                        rw [findEntry_removeEntry_ne hba]
                        exact hfb), lookup_dir_missing hfb]
                    · rw [lookup_dir_found (by
                        rw [findEntry_removeEntry_ne hba]
                        exact hfb), lookup_dir_found hfb]
                | cons d p'' =>
                    rcases hf : findEntry es a with _ | c
                    · rw [show removeAt (.dir es) (a :: d :: p'')
                          = .dir es from by simp [removeAt, hf]]
                    · rw [show removeAt (.dir es) (a :: d :: p'')
                          = .dir (setEntry es a (removeAt c (d :: p'')))
                        from by simp [removeAt, hf]]
                      rcases hfb : findEntry es b with _ | cb
                      · rw [lookup_dir_missing (by
                          rw [findEntry_setEntry_ne hba]
                          exact hfb), lookup_dir_missing hfb]
                      · rw [lookup_dir_found (by
                          rw [findEntry_setEntry_ne hba]
                          exact hfb), lookup_dir_found hfb]

/-- A component-prefix relation exhibits a path suffix. -/
theorem isPrefixOfB_exists {p : FPath} :
    ∀ {q : FPath}, p.isPrefixOf q = true → ∃ r, q = p ++ r := by
  induction p with
  | nil => intro q _; exact ⟨q, rfl⟩
  | cons a p' ih =>
      intro q h
      cases q with
      | nil => simp [List.isPrefixOf] at h
      | cons b q' =>
          simp only [List.isPrefixOf, Bool.and_eq_true, beq_iff_eq] at h
          obtain ⟨rfl, h2⟩ := h
          obtain ⟨r, rfl⟩ := ih h2
          exact ⟨r, rfl⟩

/-- A component-prefix of `q ++ [x]` is a prefix of `q` or the whole. -/
theorem isPrefixOfB_snoc {p : FPath} {x : String} :
    ∀ {q : FPath}, p.isPrefixOf (q ++ [x]) = true →
      p.isPrefixOf q = true ∨ p = q ++ [x] := by
  induction p with
  | nil => intro q _; left; cases q <;> rfl
  | cons a p' ih =>
      intro q h
      cases q with
      | nil =>
          simp only [List.nil_append, List.isPrefixOf, Bool.and_eq_true,
            beq_iff_eq] at h
          obtain ⟨rfl, h2⟩ := h
          cases p' with
          | nil => right; rfl
          | cons c p'' => simp [List.isPrefixOf] at h2
      | cons b q' =>
          simp only [List.cons_append, List.isPrefixOf, Bool.and_eq_true,
            beq_iff_eq] at h
          obtain ⟨rfl, h2⟩ := h
          rcases ih h2 with h3 | rfl
          · left
            simp [List.isPrefixOf, h3]
          · right
            rfl

/-- One-step equation: copying a file subtree is rejected (the source only
ever calls `copy_dir_recursive` on directories). -/
theorem copyDirRec_file (sz : Nat) (fs : FSTree) (dest : FPath) :
    copyDirRec (.file sz) fs dest = (false, fs) := by
  simp [copyDirRec]

/-- One-step equation: copying a directory subtree creates the destination
directory and copies the entries. -/
theorem copyDirRec_dir (cs : Entries) (fs : FSTree) (dest : FPath) :
    copyDirRec (.dir cs) fs dest
      = match createDirAll fs dest with
        | none => (false, fs)
        | some fs₁ => copyEntries cs fs₁ dest := by
  simp [copyDirRec]

/-- One-step equation: copying no entries succeeds with the state
unchanged. -/
theorem copyEntries_nil (fs : FSTree) (dest : FPath) :
    copyEntries [] fs dest = (true, fs) := by
  simp [copyEntries]

/-- One-step equation: copying a file entry. -/
theorem copyEntries_cons_file (n : String) (sz : Nat) (rest : Entries)
    (fs : FSTree) (dest : FPath) :
    copyEntries ((n, .file sz) :: rest) fs dest
      = match fsCopyFile fs sz (dest ++ [n]) with
        | none => (false, fs)
        | some fs' => copyEntries rest fs' dest := by
  simp only [copyEntries]
  rcases fsCopyFile fs sz (dest ++ [n]) with _ | fs' <;> rfl

/-- One-step equation: copying a directory entry. -/
theorem copyEntries_cons_dir (n : String) (cs : Entries) (rest : Entries)
    (fs : FSTree) (dest : FPath) :
    copyEntries ((n, .dir cs) :: rest) fs dest
      = match copyDirRec (.dir cs) fs (dest ++ [n]) with
        | (false, fs') => (false, fs')
        | (true, fs') => copyEntries rest fs' dest := by
  simp [copyEntries]

/-- A successful `fs::copy` is exactly an insertion of the file. -/
theorem fsCopyFile_some_insert {fs fs' : FSTree} {sz : Nat} {d : FPath}
    (h : fsCopyFile fs sz d = some fs') :
    insertAt fs d (.file sz) = some fs' := by
  unfold fsCopyFile at h
  rcases hl : lookupFS fs d with _ | u
  · rw [hl] at h
    exact h
  · rw [hl] at h
    cases u with
    | file sz₀ => exact h
    | dir es => simp at h

/-- Every subtree has positive structural weight. -/
theorem fsWeight_pos (t : FSTree) : 1 ≤ fsWeight t := by
  cases t <;> simp [fsWeight, entsWeight]

/-- Copying entries below `dest` never changes the resolution of a path
diverging from `dest` — whether or not the copy succeeds (partial states are
confined to the destination cone).  Strong induction on structural
weight. -/
theorem copy_preserve (k : Nat) :
    (∀ t, fsWeight t ≤ k → ∀ fs dest q, divergesB dest q = true →
      lookupFS ((copyDirRec t fs dest).2) q = lookupFS fs q) ∧
    (∀ cs, entsWeight cs ≤ k → ∀ fs dest q, divergesB dest q = true →
      lookupFS ((copyEntries cs fs dest).2) q = lookupFS fs q) := by
  induction k with
  | zero =>
      constructor
      · intro t ht
        have := fsWeight_pos t
        omega
      · intro cs hcs fs dest q hd
        cases cs with
        | nil => rw [copyEntries_nil]
        | cons e rest =>
            obtain ⟨n, c⟩ := e
            simp only [entsWeight] at hcs
            have := fsWeight_pos c
            omega
  | succ k ih =>
      constructor
      · intro t ht fs dest q hd
        cases t with
        | file sz => rw [copyDirRec_file]
        | dir cs =>
            rw [copyDirRec_dir]
            rcases hcda : createDirAll fs dest with _ | fs₁
            · rfl
            · have hcs : entsWeight cs ≤ k := by
                simp only [fsWeight] at ht
                omega
              calc lookupFS ((copyEntries cs fs₁ dest).2) q
                  = lookupFS fs₁ q := ih.2 cs hcs fs₁ dest q hd
                _ = lookupFS fs q := cda_diverge hd hcda
      · intro cs hcs fs dest q hd
        cases cs with
        | nil => rw [copyEntries_nil]
        | cons e rest =>
            obtain ⟨n, c⟩ := e
            simp only [entsWeight] at hcs
            have hdx : divergesB (dest ++ [n]) q = true :=
              divergesB_extend hd [n]
            cases c with
            | file sz =>
                rw [copyEntries_cons_file]
                rcases hcp : fsCopyFile fs sz (dest ++ [n]) with _ | fs'
                · rfl
                · have h1 : lookupFS fs' q = lookupFS fs q :=
                    insertAt_diverge hdx (fsCopyFile_some_insert hcp)
                  have hrest : entsWeight rest ≤ k := by
                    simp only [fsWeight] at hcs
                    omega
                  calc lookupFS ((copyEntries rest fs' dest).2) q
                      = lookupFS fs' q := ih.2 rest hrest fs' dest q hd
                    _ = lookupFS fs q := h1
            | dir cs' =>
                rw [copyEntries_cons_dir]
                rcases hcr : copyDirRec (.dir cs') fs (dest ++ [n])
                  with ⟨flag, fs'⟩
                have hw' : fsWeight (.dir cs') ≤ k := by
                  simp only [fsWeight] at hcs ⊢
                  omega
                have h1 : lookupFS fs' q = lookupFS fs q := by
                  have := ih.1 (.dir cs') hw' fs (dest ++ [n]) q hdx
                  rw [hcr] at this
                  exact this
                cases flag
                · exact h1
                · have hrest : entsWeight rest ≤ k := by
                    simp only [fsWeight] at hcs
                    omega
                  calc lookupFS ((copyEntries rest fs' dest).2) q
                      = lookupFS fs' q := ih.2 rest hrest fs' dest q hd
                    _ = lookupFS fs q := h1

/-- Copying a well-formed snapshot entry list below a freshly inserted
directory extends that directory in place: the whole copy loop is equivalent
to a single insertion of the accumulated entry list.  Strong induction on
structural weight. -/
theorem copyEntries_spec (k : Nat) :
    ∀ (cs : Entries), entsWeight cs ≤ k → wfEntries cs = true →
      ∀ (fs₀ g : FSTree) (dest : FPath) (acc : Entries),
        insertAt fs₀ dest (.dir acc) = some g →
        (∀ m c, (m, c) ∈ cs → findEntry acc m = none) →
        ∃ fs', copyEntries cs g dest = (true, fs')
          ∧ insertAt fs₀ dest (.dir (acc ++ cs)) = some fs' := by
  induction k with
  | zero =>
      intro cs hk _ fs₀ g dest acc hins _
      cases cs with
      | nil =>
          refine ⟨g, copyEntries_nil g dest, ?_⟩
          simpa using hins
      | cons e rest =>
          obtain ⟨n, c⟩ := e
          simp only [entsWeight] at hk
          have := fsWeight_pos c
          omega
  | succ k ih =>
      intro cs hk hwf fs₀ g dest acc hins hdisj
      cases cs with
      | nil =>
          refine ⟨g, copyEntries_nil g dest, ?_⟩
          simpa using hins
      | cons e rest =>
          obtain ⟨n, c⟩ := e
          obtain ⟨hnrest, hc, hrest⟩ := wfEntries_cons.mp hwf
          have hacc_n : findEntry acc n = none :=
            hdisj n c (List.mem_cons_self _ _)
          have hgdest : lookupFS g dest = some (.dir acc) :=
            insertAt_self hins
          have hdisj' : ∀ m c', (m, c') ∈ rest →
              findEntry (acc ++ [(n, c)]) m = none := by
            intro m c' hm
            have h1 : findEntry acc m = none :=
              hdisj m c' (List.mem_cons_of_mem _ hm)
            have h2 : m ≠ n := findEntry_none_of_mem hnrest hm
            have hnm : ¬(n = m) := fun hh => h2 hh.symm
            rw [findEntry_append_of_none h1]
            simp [findEntry, hnm]
          simp only [entsWeight] at hk
          have hkrest : entsWeight rest ≤ k := by
            have := fsWeight_pos c
            omega
          cases c with
          | file sz =>
              have hlook : lookupFS g (dest ++ [n]) = none := by
                rw [lookup_append, hgdest]
                simpa using lookup_dir_missing hacc_n []
              obtain ⟨g', hg'⟩ :=
                insertAt_parent_ok hgdest n (FSTree.file sz)
              have hcp : fsCopyFile g sz (dest ++ [n]) = some g' := by
                unfold fsCopyFile
                rw [hlook]
                exact hg'
              have hins2 : insertAt fs₀ dest
                  (.dir (acc ++ [(n, .file sz)])) = some g' := by
                rw [← insert_insert hins hacc_n]
                exact hg'
              obtain ⟨fs', h1, h2⟩ :=
                ih rest hkrest hrest fs₀ g' dest (acc ++ [(n, .file sz)])
                  hins2 hdisj'
              refine ⟨fs', ?_, ?_⟩
              · rw [copyEntries_cons_file, hcp]
                exact h1
              · rw [List.append_cons]
                exact h2
          | dir cs' =>
              have hwcs' : entsWeight cs' ≤ k := by
                simp only [fsWeight] at hk
                omega
              obtain ⟨g₁, hg₁⟩ :=
                insertAt_parent_ok hgdest n (FSTree.dir [])
              have hcda : createDirAll g (dest ++ [n]) = some g₁ := by
                rw [cda_eq_insert hgdest hacc_n]
                exact hg₁
              obtain ⟨g₂, hce, hins₂⟩ :=
                ih cs' hwcs' (by simpa [wfFS] using hc) g g₁ (dest ++ [n])
                  [] hg₁ (fun m c' _ => rfl)
              have hcdr : copyDirRec (.dir cs') g (dest ++ [n])
                  = (true, g₂) := by
                rw [copyDirRec_dir, hcda]
                simpa using hce
              have hins3 : insertAt g (dest ++ [n]) (.dir cs') = some g₂ := by
                simpa using hins₂
              have hins4 : insertAt fs₀ dest (.dir (acc ++ [(n, .dir cs')]))
                  = some g₂ := by
                rw [← insert_insert hins hacc_n]
                exact hins3
              obtain ⟨fs', h1, h2⟩ :=
                ih rest hkrest hrest fs₀ g₂ dest (acc ++ [(n, .dir cs')])
                  hins4 hdisj'
              refine ⟨fs', ?_, ?_⟩
              · rw [copyEntries_cons_dir, hcdr]
                exact h1
              · rw [List.append_cons]
                exact h2

/-- A successful recursive copy of a well-formed directory snapshot into a
fresh slot under an existing parent directory equals a single insertion of
the snapshot. -/
theorem copyDirRec_spec {cs : Entries} (hwf : wfEntries cs = true)
    {fs : FSTree} {ps : FPath} {es₀ : Entries} (n : String)
    (hps : lookupFS fs ps = some (.dir es₀))
    (hn : findEntry es₀ n = none) :
    ∃ fs', copyDirRec (.dir cs) fs (ps ++ [n]) = (true, fs')
      ∧ insertAt fs (ps ++ [n]) (.dir cs) = some fs' := by
  obtain ⟨g, hg⟩ := insertAt_parent_ok hps n (FSTree.dir [])
  have hcda : createDirAll fs (ps ++ [n]) = some g := by
    rw [cda_eq_insert hps hn]
    exact hg
  obtain ⟨fs', h1, h2⟩ :=
    copyEntries_spec (entsWeight cs) cs le_rfl hwf fs g (ps ++ [n]) [] hg
      (fun m c _ => rfl)
  refine ⟨fs', ?_, by simpa using h2⟩
  rw [copyDirRec_dir, hcda]
  simpa using h1

/-- C6: in `copy_or_move` with `is_cut = true`, when the initial rename
fails (`renameOk = false`) the fallback copies the source subtree to the
destination and deletes the original only afterwards, so the operation ends
with the source absent and an identical copy at `dest_dir/src.file_name()`;
with `is_cut = false` the source is never deleted (it is still present,
alongside the copy); and if the copy phase fails, the original is NOT
deleted — the operation surfaces an error with the source still intact. -/
theorem c6_cut_fallback_copy_then_delete (fs : FSTree)
    (src dest_dir : FPath) (t : FSTree) (ds : Entries) (L : String)
    (hwf : wfFS fs = true)
    (hdest : lookupFS fs dest_dir = some (.dir ds))
    (hsrc : lookupFS fs src = some t)
    (hlast : src.getLast? = some L)
    (hfresh : lookupFS fs (dest_dir ++ [L]) = none)
    (hnopre : src.isPrefixOf dest_dir = false) :
    (∃ fs', copy_or_move false is_path_too_long_unix fs src dest_dir true
        = (.ok (), fs')
      ∧ lookupFS fs' src = none
      ∧ lookupFS fs' (dest_dir ++ [L]) = some t) ∧
    (∃ fs', copy_or_move false is_path_too_long_unix fs src dest_dir false
        = (.ok (), fs')
      ∧ lookupFS fs' src = some t
      ∧ lookupFS fs' (dest_dir ++ [L]) = some t) ∧
    (∀ (fs₂ t₂ : FSTree) (ds₂ : Entries),
        lookupFS fs₂ dest_dir = some (.dir ds₂) →
        lookupFS fs₂ src = some t₂ →
        divergesB src (dest_dir ++ [L]) = true →
        (copy_or_move false is_path_too_long_unix fs₂ src dest_dir true).1
            ≠ .ok () →
        ∃ fs₁, copy_or_move false is_path_too_long_unix fs₂ src dest_dir
            true = (.error .ioError, fs₁)
          ∧ lookupFS fs₁ src = some t₂) := by
  have hexd : existsFS fs dest_dir = true := by simp [existsFS, hdest]
  have hisd : isDirFS fs dest_dir = true := by simp [isDirFS, hdest]
  have hexs : existsFS fs src = true := by simp [existsFS, hsrc]
  have hne : src ≠ [] := by
    intro h
    rw [h] at hlast
    simp at hlast
  have hdiv : divergesB src (dest_dir ++ [L]) = true := by
    apply divergesB_of_incomparable
    · intro hp
      rcases isPrefixOfB_snoc hp with h1 | h1
      · rw [h1] at hnopre
        simp at hnopre
      · rw [h1] at hsrc
        rw [hsrc] at hfresh
        simp at hfresh
    · intro hp
      obtain ⟨r, hr⟩ := isPrefixOfB_exists hp
      have := lookup_prefix_isSome (p := dest_dir ++ [L]) (r := r)
        (by rw [← hr]; exact hsrc)
      rw [hfresh] at this
      simp at this
  have hdiv' : divergesB (dest_dir ++ [L]) src = true := by
    rw [divergesB_comm]
    exact hdiv
  have hfds : findEntry ds L = none := by
    have hfr := hfresh
    rw [lookup_append, hdest] at hfr
    simp only [Option.some_bind] at hfr
    rcases hfe : findEntry ds L with _ | c
    · rfl
    · rw [lookup_dir_found hfe []] at hfr
      simp [lookupFS] at hfr
  refine ⟨?_, ?_, ?_⟩
  · cases t with
    | dir cs =>
        have hwcs : wfEntries cs = true := by
          simpa [wfFS] using wf_lookup hwf hsrc
        obtain ⟨fs₁, hcdr, hins⟩ := copyDirRec_spec hwcs L hdest hfds
        have hl1 : lookupFS fs₁ src = some (.dir cs) := by
          rw [insertAt_diverge hdiv' hins]
          exact hsrc
        have hdel : delete_path fs₁ src = some (removeAt fs₁ src) := by
          simp [delete_path, hl1]
        have hwfs₁ : wfFS fs₁ = true :=
          wf_insertAt hwf (by simpa [wfFS] using hwcs) hins
        refine ⟨removeAt fs₁ src, ?_, ?_, ?_⟩
        · simp [copy_or_move, hexd, hisd, hexs, hnopre, hlast,
            is_path_too_long_unix, hsrc, hcdr, hdel]
        · exact removeAt_self_none hwfs₁ hne
        · rw [removeAt_diverge hdiv]
          exact insertAt_self hins
    | file sz =>
        obtain ⟨fs₁, hins⟩ := insertAt_parent_ok hdest L (FSTree.file sz)
        have hcp : fsCopyFile fs sz (dest_dir ++ [L]) = some fs₁ := by
          unfold fsCopyFile
          rw [hfresh]
          exact hins
        have hl1 : lookupFS fs₁ src = some (.file sz) := by
          rw [insertAt_diverge hdiv' hins]
          exact hsrc
        have hdel : delete_path fs₁ src = some (removeAt fs₁ src) := by
          simp [delete_path, hl1]
        have hwfs₁ : wfFS fs₁ = true :=
          wf_insertAt hwf (by simp [wfFS]) hins
        refine ⟨removeAt fs₁ src, ?_, ?_, ?_⟩
        · simp [copy_or_move, hexd, hisd, hexs, hnopre, hlast,
            is_path_too_long_unix, hsrc, hcp, hdel]
        · exact removeAt_self_none hwfs₁ hne
        · rw [removeAt_diverge hdiv]
          exact insertAt_self hins
  · cases t with
    | dir cs =>
        have hwcs : wfEntries cs = true := by
          simpa [wfFS] using wf_lookup hwf hsrc
        obtain ⟨fs₁, hcdr, hins⟩ := copyDirRec_spec hwcs L hdest hfds
        have hl1 : lookupFS fs₁ src = some (.dir cs) := by
          rw [insertAt_diverge hdiv' hins]
          exact hsrc
        refine ⟨fs₁, ?_, hl1, insertAt_self hins⟩
        simp [copy_or_move, hexd, hisd, hexs, hnopre, hlast,
          is_path_too_long_unix, hsrc, hcdr]
    | file sz =>
        obtain ⟨fs₁, hins⟩ := insertAt_parent_ok hdest L (FSTree.file sz)
        have hcp : fsCopyFile fs sz (dest_dir ++ [L]) = some fs₁ := by
          unfold fsCopyFile
          rw [hfresh]
          exact hins
        have hl1 : lookupFS fs₁ src = some (.file sz) := by
          rw [insertAt_diverge hdiv' hins]
          exact hsrc
        refine ⟨fs₁, ?_, hl1, insertAt_self hins⟩
        simp [copy_or_move, hexd, hisd, hexs, hnopre, hlast,
          is_path_too_long_unix, hsrc, hcp]
  · intro fs₂ t₂ ds₂ hd2 hs2 hdiv2 hnok
    have hexd₂ : existsFS fs₂ dest_dir = true := by simp [existsFS, hd2]
    have hisd₂ : isDirFS fs₂ dest_dir = true := by simp [isDirFS, hd2]
    have hexs₂ : existsFS fs₂ src = true := by simp [existsFS, hs2]
    have hdiv₂' : divergesB (dest_dir ++ [L]) src = true := by
      rw [divergesB_comm]
      exact hdiv2
    cases t₂ with
    | dir cs₂ =>
        rcases hcr : copyDirRec (.dir cs₂) fs₂ (dest_dir ++ [L])
          with ⟨flag, fs₁⟩
        have hpres : lookupFS fs₁ src = some (.dir cs₂) := by
          have hpp := (copy_preserve (fsWeight (.dir cs₂))).1 (.dir cs₂)
            le_rfl fs₂ (dest_dir ++ [L]) src hdiv₂'
          rw [hcr] at hpp
          rw [hpp]
          exact hs2
        cases flag with
        | false =>
            refine ⟨fs₁, ?_, hpres⟩
            simp [copy_or_move, hexd₂, hisd₂, hexs₂, hnopre, hlast,
              is_path_too_long_unix, hs2, hcr]
        | true =>
            exfalso
            apply hnok
            have hdel : delete_path fs₁ src = some (removeAt fs₁ src) := by
              simp [delete_path, hpres]
            simp [copy_or_move, hexd₂, hisd₂, hexs₂, hnopre, hlast,
              is_path_too_long_unix, hs2, hcr, hdel]
    | file sz =>
        rcases hcp : fsCopyFile fs₂ sz (dest_dir ++ [L]) with _ | fs₁
        · refine ⟨fs₂, ?_, hs2⟩
          simp [copy_or_move, hexd₂, hisd₂, hexs₂, hnopre, hlast,
            is_path_too_long_unix, hs2, hcp]
        · exfalso
          apply hnok
          have hpres : lookupFS fs₁ src = some (.file sz) := by
            rw [insertAt_diverge hdiv₂' (fsCopyFile_some_insert hcp)]
            exact hs2
          have hdel : delete_path fs₁ src = some (removeAt fs₁ src) := by
            simp [delete_path, hpres]
          simp [copy_or_move, hexd₂, hisd₂, hexs₂, hnopre, hlast,
            is_path_too_long_unix, hs2, hcp, hdel]

/-- Witness for C6: cutting `s` into `d` on `fsC6` ends with `s` absent and
an identical copy at `d/s`; plain copying leaves `s` in place; and on
`fsC6b`, where the copy phase fails, the operation errors with the source
left intact (no deletion). -/
theorem c6_cut_fallback_copy_then_delete_witness :
    (∃ fs', copy_or_move false is_path_too_long_unix fsC6 ["s"] ["d"] true
        = (.ok (), fs')
      ∧ lookupFS fs' ["s"] = none
      ∧ lookupFS fs' (["d"] ++ ["s"]) = some (.dir [("f", .file 7)])) ∧
    (∃ fs', copy_or_move false is_path_too_long_unix fsC6 ["s"] ["d"] false
        = (.ok (), fs')
      ∧ lookupFS fs' ["s"] = some (.dir [("f", .file 7)])
      ∧ lookupFS fs' (["d"] ++ ["s"]) = some (.dir [("f", .file 7)])) ∧
    (∃ fs₁, copy_or_move false is_path_too_long_unix fsC6b ["s"] ["d"] true
        = (.error .ioError, fs₁)
      ∧ lookupFS fs₁ ["s"] = some (.file 5)) := by
  have h := c6_cut_fallback_copy_then_delete fsC6 ["s"] ["d"]
    (.dir [("f", .file 7)]) [] "s" (by rfl) (by rfl) (by rfl) (by rfl)
    (by rfl) (by rfl)
  have hval : (copy_or_move false is_path_too_long_unix fsC6b ["s"] ["d"]
      true).1 = .error .ioError := by rfl
  refine ⟨h.1, h.2.1, ?_⟩
  exact h.2.2 fsC6b (.file 5) [("s", .dir [])] (by rfl) (by rfl) (by rfl)
    (by simp [hval])

end TS
